import Mathlib

/-!
Verification development for the tree engine and id-prefix index of a
content-addressed version-control library (sources: `lib/src/tree.rs`
and `lib/src/id_prefix.rs`).

Object ids are modelled as lists of natural numbers (their bytes);
stores are finite association tables; iterators are modelled as step
functions driven by explicit fuel (the lazy pull-based iteration of the
source terminates on the finite trees the store can actually hold, and
fuel makes that termination explicit).
-/

set_option linter.unusedVariables false

namespace JJ

/-! ### Byte strings and hex digits -/

/-- Lexicographic strict order on byte strings, as Rust's `Ord` on
`&[u8]` (used by `IdIndex` through `ObjectId + Ord`). -/
def ltB : List Nat → List Nat → Bool
  | [], [] => false
  | [], _ :: _ => true
  | _ :: _, [] => false
  | a :: as, b :: bs => if a < b then true else if b < a then false else ltB as bs

/-- Non-strict byte-string order: `a ≤ b` iff `¬ (b < a)`. -/
def leB (a b : List Nat) : Bool := !ltB b a

theorem ltB_nil_right (a : List Nat) : ltB a [] = false := by
  cases a <;> rfl

theorem ltB_irrefl (a : List Nat) : ltB a a = false := by
  induction a with
  | nil => rfl
  | cons x xs ih => simp [ltB, ih]

theorem ltB_asymm : ∀ a b : List Nat, ltB a b = true → ltB b a = false
  | [], [], h => by simp [ltB] at h
  | [], _ :: _, _ => by simp [ltB]
  | _ :: _, [], h => by simp [ltB] at h
  | a :: as, b :: bs, h => by
    simp only [ltB] at h ⊢
    by_cases hab : a < b
    · have : ¬ b < a := by omega
      simp [hab, this]
    · by_cases hba : b < a
      · simp [hab, hba] at h
      · simp [hab, hba] at h ⊢
        exact ltB_asymm as bs h

theorem ltB_total_eq : ∀ a b : List Nat, ltB a b = false → ltB b a = false → a = b
  | [], [], _, _ => rfl
  | [], _ :: _, h, _ => by simp [ltB] at h
  | _ :: _, [], _, h' => by simp [ltB] at h'
  | a :: as, b :: bs, h, h' => by
    simp only [ltB] at h h'
    by_cases hab : a < b
    · simp [hab] at h
    · by_cases hba : b < a
      · simp [hba, hab] at h'
      · have : a = b := by omega
        subst this
        simp [hab] at h h'
        rw [ltB_total_eq as bs h h']

theorem ltB_le_le : ∀ a b c : List Nat,
    ltB b a = false → ltB c b = false → ltB c a = false := by
  intro a
  induction a with
  | nil => intro b c _ _; exact ltB_nil_right c
  | cons x xs ih =>
    intro b c h1 h2
    cases b with
    | nil => simp [ltB] at h1
    | cons y ys =>
      cases c with
      | nil => simp [ltB] at h2
      | cons z zs =>
        simp only [ltB] at h1 h2 ⊢
        by_cases hyx : y < x
        · simp [hyx] at h1
        · by_cases hzy : z < y
          · simp [hzy] at h2
          · by_cases hzx : z < x
            · exfalso; omega
            · by_cases hxz : x < z
              · simp [hzx, hxz]
              · have hxy : x = y := by
                  by_cases hxy' : x < y
                  · exfalso; omega
                  · omega
                have hyz : y = z := by omega
                subst hxy; subst hyz
                simp [Nat.lt_irrefl] at h1 h2 ⊢
                exact ih ys zs h1 h2

theorem leB_trans (a b c : List Nat) (h1 : leB a b = true) (h2 : leB b c = true) :
    leB a c = true := by
  simp only [leB, Bool.not_eq_true'] at h1 h2 ⊢
  exact ltB_le_le a b c h1 h2

/-- Hex digits of a byte string, two digits per byte, high nibble
first (`ObjectId::hex` viewed as a digit sequence). -/
def hexOf : List Nat → List Nat
  | [] => []
  | b :: bs => b / 16 :: b % 16 :: hexOf bs

/-- Boolean list-prefix test (e.g. `hex.starts_with(prefix)`). -/
def isPfx : List Nat → List Nat → Bool
  | [], _ => true
  | _ :: _, [] => false
  | a :: as, b :: bs => decide (a = b) && isPfx as bs

/-- Length of the longest common prefix of two digit lists. -/
def lcpLen : List Nat → List Nat → Nat
  | a :: as, b :: bs => if a = b then lcpLen as bs + 1 else 0
  | _, _ => 0

/-- Modelled from the spec: `backend::common_hex_len` (not under
`src/`) — "compute the common-hex-prefix length of `key` with each
neighbor": the number of leading hex digits the two byte strings
share. -/
def commonHexLen (a b : List Nat) : Nat := lcpLen (hexOf a) (hexOf b)

/-! ### HexPrefix -/

/-- Modelled from the spec: `HexPrefix` (in `index.rs`, not under
`src/`) is "a user-supplied hex string, possibly odd-length"; we keep
it as its list of hex digits. `min_prefix_bytes` are the bytes implied
by the prefix, an odd trailing nibble padded with a low zero nibble so
that every id matching the prefix is byte-wise `≥ min_prefix_bytes`
(this is what makes the documented `resolve_prefix_range` algorithm
— binary-locate the first key `≥ min_prefix_bytes`, then take while
matching — return every matching key, as the spec's literal scenarios
require). -/
def minPrefixBytes : List Nat → List Nat
  | [] => []
  | [d] => [16 * d]
  | d1 :: d2 :: rest => (16 * d1 + d2) :: minPrefixBytes rest

/-- Modelled from the spec: `HexPrefix::matches(id)` "is true iff
`id`'s hex starts with the original hex string". -/
def matchesHex (p : List Nat) (k : List Nat) : Bool := isPfx p (hexOf k)

/-! ### IdIndex (`id_prefix.rs`) -/

/-- A prefix resolution: `NoMatch`, `SingleMatch(T)` or
`AmbiguousMatch` (from `index.rs`, mirrored by the spec's
`PrefixResolution<T>`). -/
inductive PrefixResolution (T : Type) where
  | noMatch
  | singleMatch (t : T)
  | ambiguousMatch
deriving DecidableEq, Repr

/-- An `IdIndex<K, V>` is a vector of `(K, V)` pairs kept sorted by
key; keys are byte strings. -/
abbrev IdIndex (V : Type) : Type := List (List Nat × V)

/-- Insert one pair into an already key-sorted list (helper realizing
`sort_unstable_by` deterministically for the model). -/
def insertByKey {V : Type} (kv : List Nat × V) : List (List Nat × V) → List (List Nat × V)
  | [] => [kv]
  | h :: t => if ltB h.1 kv.1 then h :: insertByKey kv t else kv :: h :: t

/-- `IdIndex::from_vec`: sort the pairs by key (the source uses
`sort_unstable_by` comparing keys only; the model sorts by insertion,
a deterministic choice of the same key order). -/
def fromVec {V : Type} : List (List Nat × V) → IdIndex V
  | [] => []
  | kv :: rest => insertByKey kv (fromVec rest)

/-- `IdIndex::resolve_prefix_range`: binary-locate the first key whose
bytes are not below `min_prefix_bytes` (`partition_point`, realized on
the sorted list as `dropWhile`), then take entries while the prefix
matches. -/
def resolvePrefixRange {V : Type} (idx : IdIndex V) (p : List Nat) : List (List Nat × V) :=
  (idx.dropWhile (fun kv => ltB kv.1 (minPrefixBytes p))).takeWhile
    (fun kv => matchesHex p kv.1)

/-- `IdIndex::resolve_prefix_with`: empty prefix is always ambiguous;
otherwise inspect the matching range: empty range is `NoMatch`; if
every key in the range equals the first key, collect the mapped
values into `SingleMatch`; otherwise `AmbiguousMatch`. -/
def resolvePrefixWith {V U : Type} (idx : IdIndex V) (p : List Nat)
    (f : V → U) : PrefixResolution (List U) :=
  if minPrefixBytes p = [] then .ambiguousMatch
  else
    match resolvePrefixRange idx p with
    | [] => .noMatch
    | (k₀, v₀) :: rest =>
      if ((k₀, v₀) :: rest).all (fun kv => decide (kv.1 = k₀)) then
        .singleMatch (((k₀, v₀) :: rest).map (fun kv => f kv.2))
      else
        .ambiguousMatch

/-- `IdIndex::resolve_prefix` — `resolve_prefix_with` specialized to
cloning the values. -/
def resolvePrefixVals {V : Type} (idx : IdIndex V) (p : List Nat) :
    PrefixResolution (List V) :=
  resolvePrefixWith idx p (fun v => v)

/-- Last element of a list, if any (the entry just before the
insertion point, `self.0[pos - 1]`). -/
def lastOpt {α : Type} : List α → Option α
  | [] => none
  | [a] => some a
  | _ :: b :: t => lastOpt (b :: t)

/-- `IdIndex::shortest_unique_prefix_len`: locate the insertion point
of `key` (`partition_point`, realized on the sorted list as
`takeWhile`/`dropWhile` of the strictly-smaller prefix), take the left
neighbor (the entry just before the insertion point, strictly less
than `key`) and the right neighbor (first entry at or after the
insertion point whose key differs), and answer
`max(common hex len with each neighbor) + 1`, defaulting to 1 with no
neighbors. -/
def shortestUniquePrefixLen {V : Type} (idx : IdIndex V) (key : List Nat) : Nat :=
  match lastOpt (idx.takeWhile (fun kv => ltB kv.1 key)),
      (idx.dropWhile (fun kv => ltB kv.1 key)).find? (fun kv => decide (kv.1 ≠ key)) with
  | none, none => 1
  | some l, none => commonHexLen key l.1 + 1
  | none, some r => commonHexLen key r.1 + 1
  | some l, some r =>
    Nat.max (commonHexLen key l.1 + 1) (commonHexLen key r.1 + 1)

/-- `IdIndex::has_key` (a binary search in the source; a membership
test on the sorted model). -/
def hasKey {V : Type} (idx : IdIndex V) (key : List Nat) : Bool :=
  idx.any (fun kv => decide (kv.1 = key))

/-! ### Order and hex lemmas -/

theorem leB_of_ltB {a b : List Nat} (h : ltB a b = true) : leB a b = true := by
  simp [leB, ltB_asymm a b h]

theorem ltB_of_leB_of_ltB {a b c : List Nat}
    (hab : leB a b = true) (hbc : ltB b c = true) : ltB a c = true := by
  by_cases hac : ltB a c = true
  · exact hac
  · exfalso
    have hca : leB c a = true := by simp [leB, hac]
    have hcb : leB c b = true := leB_trans c a b hca hab
    simp [leB, hbc] at hcb

/-- A byte string matching a hex prefix is not below the prefix's
minimum bytes (soundness of the `partition_point` lower bound). -/
theorem ltB_min_eq_false_of_matches :
    ∀ p k : List Nat, matchesHex p k = true → ltB k (minPrefixBytes p) = false
  | [], k, _ => by simpa [minPrefixBytes] using ltB_nil_right k
  | [d], k, h => by
    cases k with
    | nil => simp [matchesHex, hexOf, isPfx] at h
    | cons b bs =>
      simp only [matchesHex, hexOf, isPfx, Bool.and_eq_true, decide_eq_true_eq] at h
      have hb : b ≥ 16 * d := by omega
      simp only [minPrefixBytes, ltB]
      by_cases h1 : b < 16 * d
      · omega
      · by_cases h2 : 16 * d < b
        · simp [h1, h2]
        · simp [h1, h2, ltB_nil_right]
  | d1 :: d2 :: rest, k, h => by
    cases k with
    | nil => simp [matchesHex, hexOf, isPfx] at h
    | cons b bs =>
      simp only [matchesHex, hexOf, isPfx, Bool.and_eq_true, decide_eq_true_eq] at h
      obtain ⟨h1, h2, h3⟩ := h
      have hb : b = 16 * d1 + d2 := by omega
      simp only [minPrefixBytes, ltB]
      have e1 : ¬ b < 16 * d1 + d2 := by omega
      have e2 : ¬ 16 * d1 + d2 < b := by omega
      simp [e1, e2]
      exact ltB_min_eq_false_of_matches rest bs h3

/-- Contiguity of a hex-prefix range: a key at or above the prefix's
minimum bytes and at or below some matching key matches itself. -/
theorem matches_of_between :
    ∀ p k k' : List Nat, ltB k (minPrefixBytes p) = false → ltB k' k = false →
      matchesHex p k' = true → matchesHex p k = true
  | [], k, k', _, _, _ => by simp [matchesHex, isPfx]
  | [d], k, k', hmin, hle, hm => by
    cases k' with
    | nil => simp [matchesHex, hexOf, isPfx] at hm
    | cons b' bs' =>
      cases k with
      | nil => simp [minPrefixBytes, ltB] at hmin
      | cons b bs =>
        simp only [matchesHex, hexOf, isPfx, Bool.and_eq_true, decide_eq_true_eq] at hm ⊢
        simp only [minPrefixBytes, ltB] at hmin
        have hb : ¬ b < 16 * d := by
          intro hc; simp [hc] at hmin
        have hbb' : ¬ b' < b := by
          intro hc; simp [ltB, hc] at hle
        have : d = b / 16 := by omega
        simp [this]
  | d1 :: d2 :: rest, k, k', hmin, hle, hm => by
    cases k' with
    | nil => simp [matchesHex, hexOf, isPfx] at hm
    | cons b' bs' =>
      cases k with
      | nil => simp [minPrefixBytes, ltB] at hmin
      | cons b bs =>
        simp only [matchesHex, hexOf, isPfx, Bool.and_eq_true, decide_eq_true_eq] at hm ⊢
        obtain ⟨e1, e2, hm3⟩ := hm
        have hb' : b' = 16 * d1 + d2 := by omega
        simp only [minPrefixBytes, ltB] at hmin
        have hbge : ¬ b < 16 * d1 + d2 := by
          intro hc; simp [hc] at hmin
        have hbb' : ¬ b' < b := by
          intro hc; simp [ltB, hc] at hle
        have hbeq : b = 16 * d1 + d2 := by omega
        have hminTail : ltB bs (minPrefixBytes rest) = false := by
          have : ¬ (16 * d1 + d2) < b := by omega
          simpa [hbeq, Nat.lt_irrefl] using hmin
        have hleTail : ltB bs' bs = false := by
          have hb'b : b' = b := by omega
          simpa [ltB, hb'b, Nat.lt_irrefl] using hle
        have ih := matches_of_between rest bs bs' hminTail hleTail hm3
        refine ⟨by omega, by omega, ih⟩

/-! ### Sortedness of `fromVec` -/

/-- The `IdIndex` invariant: pairs sorted by key. -/
def KeySorted {V : Type} (l : List (List Nat × V)) : Prop :=
  l.Pairwise (fun a b => leB a.1 b.1 = true)

theorem insertByKey_cons_pos {V : Type} (kv h : List Nat × V) (t : List (List Nat × V))
    (hc : ltB h.1 kv.1 = true) : insertByKey kv (h :: t) = h :: insertByKey kv t := by
  simp [insertByKey, hc]

theorem insertByKey_cons_neg {V : Type} (kv h : List Nat × V) (t : List (List Nat × V))
    (hc : ltB h.1 kv.1 = false) : insertByKey kv (h :: t) = kv :: h :: t := by
  simp [insertByKey, hc]

theorem mem_insertByKey {V : Type} (kv x : List Nat × V) :
    ∀ l : List (List Nat × V), x ∈ insertByKey kv l ↔ x = kv ∨ x ∈ l
  | [] => by simp [insertByKey]
  | h :: t => by
    by_cases hc : ltB h.1 kv.1 = true
    · rw [insertByKey_cons_pos kv h t hc, List.mem_cons, mem_insertByKey kv x t,
        List.mem_cons]
      tauto
    · rw [insertByKey_cons_neg kv h t (by simpa using hc)]
      simp

theorem keySorted_insertByKey {V : Type} (kv : List Nat × V) :
    ∀ l : List (List Nat × V), KeySorted l → KeySorted (insertByKey kv l)
  | [], _ => by simp [insertByKey, KeySorted]
  | h :: t, hs => by
    rw [KeySorted, List.pairwise_cons] at hs
    obtain ⟨hhd, htl⟩ := hs
    by_cases hc : ltB h.1 kv.1 = true
    · rw [insertByKey_cons_pos kv h t hc, KeySorted, List.pairwise_cons]
      constructor
      · intro x hx
        rcases (mem_insertByKey kv x t).mp hx with rfl | hxt
        · exact leB_of_ltB hc
        · exact hhd x hxt
      · exact keySorted_insertByKey kv t htl
    · rw [insertByKey_cons_neg kv h t (by simpa using hc), KeySorted, List.pairwise_cons]
      constructor
      · intro x hx
        have hkvh : leB kv.1 h.1 = true := by
          simp only [leB, Bool.not_eq_true']
          simpa using hc
        rcases List.mem_cons.mp hx with rfl | hxt
        · exact hkvh
        · exact leB_trans kv.1 h.1 x.1 hkvh (hhd x hxt)
      · exact List.pairwise_cons.mpr ⟨hhd, htl⟩

theorem keySorted_fromVec {V : Type} :
    ∀ l : List (List Nat × V), KeySorted (fromVec l)
  | [] => by simp [fromVec, KeySorted]
  | kv :: rest => keySorted_insertByKey kv (fromVec rest) (keySorted_fromVec rest)

theorem mem_fromVec {V : Type} (x : List Nat × V) :
    ∀ l : List (List Nat × V), x ∈ fromVec l ↔ x ∈ l
  | [] => Iff.rfl
  | kv :: rest => by
    show x ∈ insertByKey kv (fromVec rest) ↔ _
    rw [mem_insertByKey, mem_fromVec x rest, List.mem_cons]

/-! ### The resolved range is exactly the matching entries -/

theorem takeWhile_eq_filter_matches {V : Type} (p : List Nat) :
    ∀ l : List (List Nat × V), KeySorted l →
      (∀ x ∈ l, ltB x.1 (minPrefixBytes p) = false) →
      l.takeWhile (fun kv => matchesHex p kv.1) =
        l.filter (fun kv => matchesHex p kv.1)
  | [], _, _ => rfl
  | h :: t, hs, hmin => by
    rw [KeySorted, List.pairwise_cons] at hs
    obtain ⟨hhd, htl⟩ := hs
    by_cases hm : matchesHex p h.1 = true
    · rw [List.takeWhile_cons_of_pos (by simpa using hm),
        List.filter_cons_of_pos (by simpa using hm)]
      rw [takeWhile_eq_filter_matches p t htl (fun x hx => hmin x (by simp [hx]))]
    · rw [List.takeWhile_cons_of_neg (by simpa using hm),
        List.filter_cons_of_neg (by simpa using hm)]
      have : ∀ x ∈ t, ¬ matchesHex p x.1 = true := by
        intro x hx hmx
        have hle : leB h.1 x.1 = true := hhd x hx
        have : matchesHex p h.1 = true :=
          matches_of_between p h.1 x.1 (hmin h (by simp)) (by simpa [leB] using hle) hmx
        exact hm this
      rw [List.filter_eq_nil_iff.mpr (by intro x hx; simpa using this x hx)]

theorem resolvePrefixRange_eq_filter {V : Type} (p : List Nat) :
    ∀ idx : IdIndex V, KeySorted idx →
      resolvePrefixRange idx p = idx.filter (fun kv => matchesHex p kv.1)
  | [], _ => rfl
  | kv :: t, hs => by
    rw [KeySorted, List.pairwise_cons] at hs
    obtain ⟨hhd, htl⟩ := hs
    by_cases hd : ltB kv.1 (minPrefixBytes p) = true
    · have hnm : ¬ matchesHex p kv.1 = true := by
        intro hm
        rw [ltB_min_eq_false_of_matches p kv.1 hm] at hd
        cases hd
      rw [resolvePrefixRange, List.dropWhile_cons_of_pos (by simpa using hd),
        List.filter_cons_of_neg (by simpa using hnm)]
      exact resolvePrefixRange_eq_filter p t htl
    · rw [resolvePrefixRange, List.dropWhile_cons_of_neg (by simpa using hd)]
      have hall : ∀ x ∈ kv :: t, ltB x.1 (minPrefixBytes p) = false := by
        intro x hx
        rcases hx with _ | hxt
        · simpa using hd
        · by_cases hc : ltB x.1 (minPrefixBytes p) = true
          · exfalso
            have : ltB kv.1 (minPrefixBytes p) = true :=
              ltB_of_leB_of_ltB (hhd x (by assumption)) hc
            simp [this] at hd
          · simpa using hc
      exact takeWhile_eq_filter_matches p (kv :: t)
        (by rw [KeySorted, List.pairwise_cons]; exact ⟨hhd, htl⟩) hall

theorem minPrefixBytes_eq_nil_iff : ∀ p : List Nat, minPrefixBytes p = [] ↔ p = []
  | [] => by simp [minPrefixBytes]
  | [d] => by simp [minPrefixBytes]
  | d1 :: d2 :: rest => by simp [minPrefixBytes]

/-- Claim C6: for every `IdIndex` and every `HexPrefix`,
`resolve_prefix_with` returns `AmbiguousMatch` whenever the prefix is
empty (even on an empty or singleton index); for a non-empty prefix it
returns `NoMatch` when no key starts with the prefix, `SingleMatch`
with the mapped values of all matching entries when every matching key
equals the first matching key, and `AmbiguousMatch` otherwise —
exactly one of the three variants in every case. -/
theorem c6_resolve_prefix_with_total {V U : Type} (l : List (List Nat × V))
    (p : List Nat) (f : V → U) :
    (p = [] → resolvePrefixWith (fromVec l) p f = .ambiguousMatch) ∧
    (p ≠ [] → (fromVec l).filter (fun kv => matchesHex p kv.1) = [] →
      resolvePrefixWith (fromVec l) p f = .noMatch) ∧
    (∀ kv₀ ms', p ≠ [] →
      (fromVec l).filter (fun kv => matchesHex p kv.1) = kv₀ :: ms' →
      (∀ kv ∈ kv₀ :: ms', kv.1 = kv₀.1) →
      resolvePrefixWith (fromVec l) p f =
        .singleMatch ((kv₀ :: ms').map (fun kv => f kv.2))) ∧
    (∀ kv₀ ms', p ≠ [] →
      (fromVec l).filter (fun kv => matchesHex p kv.1) = kv₀ :: ms' →
      (∃ kv ∈ kv₀ :: ms', kv.1 ≠ kv₀.1) →
      resolvePrefixWith (fromVec l) p f = .ambiguousMatch) := by
  have hrange : resolvePrefixRange (fromVec l) p =
      (fromVec l).filter (fun kv => matchesHex p kv.1) :=
    resolvePrefixRange_eq_filter p (fromVec l) (keySorted_fromVec l)
  refine ⟨?_, ?_, ?_, ?_⟩
  · intro hp; subst hp
    simp [resolvePrefixWith, minPrefixBytes]
  · intro hp hfil
    rw [resolvePrefixWith, if_neg (by simpa [minPrefixBytes_eq_nil_iff] using hp),
      hrange, hfil]
  · intro kv₀ ms' hp hfil hall
    obtain ⟨k₀, v₀⟩ := kv₀
    rw [resolvePrefixWith, if_neg (by simpa [minPrefixBytes_eq_nil_iff] using hp),
      hrange, hfil]
    have : ((k₀, v₀) :: ms').all (fun kv => decide (kv.1 = k₀)) = true := by
      rw [List.all_eq_true]
      intro kv hkv
      simpa using hall kv hkv
    simp only [this, if_pos]
  · intro kv₀ ms' hp hfil hex
    obtain ⟨k₀, v₀⟩ := kv₀
    rw [resolvePrefixWith, if_neg (by simpa [minPrefixBytes_eq_nil_iff] using hp),
      hrange, hfil]
    obtain ⟨kv, hkv, hne⟩ := hex
    have : ((k₀, v₀) :: ms').all (fun kv => decide (kv.1 = k₀)) = false := by
      rw [Bool.eq_false_iff]
      intro hc
      rw [List.all_eq_true] at hc
      exact hne (by simpa using hc kv hkv)
    simp only [this]
    rfl

/-- Witness for C6 at the spec's literal scenario 1 inputs. -/
theorem c6_resolve_prefix_with_total_witness :
    resolvePrefixWith (fromVec [([0, 0], 0), ([0, 153], 1), ([0, 153], 2)]) []
        (fun v => v) = .ambiguousMatch ∧
    resolvePrefixWith (fromVec [([0, 0], 0), ([0, 153], 1), ([0, 153], 2)]) [15]
        (fun v => v) = .noMatch ∧
    resolvePrefixWith (fromVec [([0, 0], 0), ([0, 153], 1), ([0, 153], 2)]) [0, 0, 9]
        (fun v => v) = .singleMatch [1, 2] ∧
    resolvePrefixWith (fromVec [([0, 0], 0), ([0, 153], 1), ([0, 153], 2)]) [0]
        (fun v => v) = .ambiguousMatch := by
  refine ⟨?_, ?_, ?_, ?_⟩
  · exact (c6_resolve_prefix_with_total [([0, 0], 0), ([0, 153], 1), ([0, 153], 2)] []
      (fun v => v)).1 rfl
  · exact (c6_resolve_prefix_with_total [([0, 0], 0), ([0, 153], 1), ([0, 153], 2)] [15]
      (fun v => v)).2.1 (by decide) (by decide)
  · exact (c6_resolve_prefix_with_total [([0, 0], 0), ([0, 153], 1), ([0, 153], 2)]
      [0, 0, 9] (fun v => v)).2.2.1 ([0, 153], 1) [([0, 153], 2)] (by decide) (by decide)
      (by decide)
  · exact (c6_resolve_prefix_with_total [([0, 0], 0), ([0, 153], 1), ([0, 153], 2)] [0]
      (fun v => v)).2.2.2 ([0, 0], 0) [([0, 153], 1), ([0, 153], 2)] (by decide)
      (by decide) ⟨([0, 153], 1), by decide, by decide⟩

/-! ### Longest-common-prefix lemmas for the shortest-unique query -/

theorem leB_refl (a : List Nat) : leB a a = true := by
  simp [leB, ltB_irrefl]

theorem lcpLen_comm : ∀ a b : List Nat, lcpLen a b = lcpLen b a
  | [], [] => rfl
  | [], _ :: _ => rfl
  | _ :: _, [] => rfl
  | a :: as, b :: bs => by
    simp only [lcpLen]
    by_cases h : a = b
    · subst h
      simp [lcpLen_comm as bs]
    · have h' : ¬ b = a := fun hh => h hh.symm
      simp [h, h']

theorem lcpLen_cons_eq (x : Nat) (as bs : List Nat) :
    lcpLen (x :: as) (x :: bs) = lcpLen as bs + 1 := by
  simp [lcpLen]

theorem take_lcpLen_isPfx : ∀ a b : List Nat, isPfx (a.take (lcpLen a b)) b = true
  | [], b => by simp [lcpLen, isPfx]
  | a :: as, [] => by simp [lcpLen, isPfx]
  | a :: as, b :: bs => by
    by_cases h : a = b
    · subst h
      rw [lcpLen_cons_eq, List.take_succ_cons]
      simp [isPfx, take_lcpLen_isPfx as bs]
    · simp [lcpLen, h, isPfx]

theorem lcpLen_ge_of_take_isPfx : ∀ (n : Nat) (a b : List Nat),
    n ≤ a.length → isPfx (a.take n) b = true → n ≤ lcpLen a b
  | 0, _, _, _, _ => Nat.zero_le _
  | n + 1, [], b, h, _ => by simp at h
  | n + 1, a :: as, [], _, hp => by simp [List.take_succ_cons, isPfx] at hp
  | n + 1, a :: as, b :: bs, h, hp => by
    rw [List.take_succ_cons] at hp
    simp only [isPfx, Bool.and_eq_true, decide_eq_true_eq] at hp
    obtain ⟨rfl, hp2⟩ := hp
    rw [lcpLen_cons_eq]
    have := lcpLen_ge_of_take_isPfx n as bs (by simpa using h) hp2
    omega

/-- Byte-wise lexicographic comparison agrees with hex-digit-wise
comparison. -/
theorem ltB_hexOf : ∀ a b : List Nat, ltB (hexOf a) (hexOf b) = ltB a b
  | [], [] => rfl
  | [], b :: bs => by simp [hexOf, ltB]
  | a :: as, [] => by simp [hexOf, ltB]
  | a :: as, b :: bs => by
    simp only [hexOf, ltB]
    by_cases h1 : a / 16 < b / 16
    · have hab : a < b := by omega
      simp [h1, hab]
    · by_cases h2 : b / 16 < a / 16
      · have hab : ¬ a < b := by omega
        have hba : b < a := by omega
        simp [h1, h2, hab, hba]
      · by_cases h3 : a % 16 < b % 16
        · have hab : a < b := by omega
          simp [h1, h2, h3, hab]
        · by_cases h4 : b % 16 < a % 16
          · have hab : ¬ a < b := by omega
            have hba : b < a := by omega
            simp [h1, h2, h3, h4, hab, hba]
          · have hab : ¬ a < b := by omega
            have hba : ¬ b < a := by omega
            simp [h1, h2, h3, h4, hab, hba, ltB_hexOf as bs]

/-- If `x ≤ y ≤ z` then `x` shares at least as long a prefix with `y`
as with `z`. -/
theorem lcpLen_le_of_between : ∀ x y z : List Nat,
    ltB y x = false → ltB z y = false → lcpLen x z ≤ lcpLen x y
  | [], _, _, _, _ => by simp [lcpLen]
  | a :: xs, y, [], _, _ => by simp [lcpLen]
  | a :: xs, y, c :: zs, h1, h2 => by
    by_cases hac : a = c
    · subst hac
      cases y with
      | nil => simp [ltB] at h1
      | cons b ys =>
        simp only [ltB] at h1 h2
        have hba : ¬ b < a := by intro hc; simp [hc] at h1
        have hab : ¬ a < b := by intro hc; simp [hc] at h2
        have hb : b = a := by omega
        subst hb
        simp only [Nat.lt_irrefl, if_false] at h1 h2
        rw [lcpLen_cons_eq, lcpLen_cons_eq]
        have := lcpLen_le_of_between xs ys zs h1 h2
        omega
    · simp [lcpLen, hac]

/-- If `x ≤ y ≤ z` then `z` shares at least as long a prefix with `y`
as with `x`. -/
theorem lcpLen_le_of_between_right : ∀ x y z : List Nat,
    ltB y x = false → ltB z y = false → lcpLen x z ≤ lcpLen y z
  | [], _, _, _, _ => by simp [lcpLen]
  | a :: xs, y, [], _, _ => by simp [lcpLen]
  | a :: xs, y, c :: zs, h1, h2 => by
    by_cases hac : a = c
    · subst hac
      cases y with
      | nil => simp [ltB] at h1
      | cons b ys =>
        simp only [ltB] at h1 h2
        have hba : ¬ b < a := by intro hc; simp [hc] at h1
        have hab : ¬ a < b := by intro hc; simp [hc] at h2
        have hb : b = a := by omega
        subst hb
        simp only [Nat.lt_irrefl, if_false] at h1 h2
        rw [lcpLen_cons_eq, lcpLen_cons_eq]
        have := lcpLen_le_of_between_right xs ys zs h1 h2
        omega
    · simp [lcpLen, hac]

/-! ### Neighbor structure of the sorted index -/

theorem lastOpt_mem {α : Type} : ∀ (l : List α) (a : α), lastOpt l = some a → a ∈ l
  | [], a, h => by simp [lastOpt] at h
  | [x], a, h => by
    simp only [lastOpt, Option.some.injEq] at h
    simp [h]
  | x :: y :: t, a, h => by
    simp only [lastOpt] at h
    exact List.mem_cons_of_mem x (lastOpt_mem (y :: t) a h)

theorem lastOpt_eq_none {α : Type} : ∀ l : List α, lastOpt l = none → l = []
  | [], _ => rfl
  | [x], h => by simp [lastOpt] at h
  | x :: y :: t, h => by
    simp only [lastOpt] at h
    exact absurd (lastOpt_eq_none (y :: t) h) (by simp)

theorem lastOpt_max {V : Type} : ∀ l : List (List Nat × V), KeySorted l →
    ∀ m, lastOpt l = some m → ∀ x ∈ l, leB x.1 m.1 = true
  | [], _, m, h => by simp [lastOpt] at h
  | [a], _, m, h => by
    simp only [lastOpt, Option.some.injEq] at h
    subst h
    intro x hx
    rcases List.mem_cons.mp hx with rfl | hx2
    · exact leB_refl _
    · simp at hx2
  | a :: b :: t, hs, m, h => by
    simp only [lastOpt] at h
    rw [KeySorted, List.pairwise_cons] at hs
    obtain ⟨hhd, htl⟩ := hs
    intro x hx
    rcases List.mem_cons.mp hx with rfl | hx2
    · exact hhd m (lastOpt_mem (b :: t) m h)
    · exact lastOpt_max (b :: t) htl m h x hx2

theorem dropWhile_ltB_all {V : Type} (key : List Nat) :
    ∀ idx : List (List Nat × V), KeySorted idx →
      ∀ x ∈ idx.dropWhile (fun kv => ltB kv.1 key), ltB x.1 key = false
  | [], _, x, hx => by simp at hx
  | h :: t, hs, x, hx => by
    rw [KeySorted, List.pairwise_cons] at hs
    obtain ⟨hhd, htl⟩ := hs
    by_cases hc : ltB h.1 key = true
    · rw [List.dropWhile_cons_of_pos (by simpa using hc)] at hx
      exact dropWhile_ltB_all key t htl x hx
    · rw [List.dropWhile_cons_of_neg (by simpa using hc)] at hx
      rcases List.mem_cons.mp hx with rfl | hx2
      · simpa using hc
      · by_cases hcx : ltB x.1 key = true
        · exact absurd (ltB_of_leB_of_ltB (hhd x hx2) hcx) hc
        · simpa using hcx

theorem find?_ne_min {V : Type} (key : List Nat) :
    ∀ l : List (List Nat × V), KeySorted l →
      ∀ r, l.find? (fun kv => decide (kv.1 ≠ key)) = some r →
        ∀ x ∈ l, x.1 ≠ key → leB r.1 x.1 = true
  | [], _, r, h => by simp at h
  | h :: t, hs, r, hf => by
    rw [KeySorted, List.pairwise_cons] at hs
    obtain ⟨hhd, htl⟩ := hs
    intro x hx hxk
    by_cases hc : h.1 ≠ key
    · rw [List.find?_cons_of_pos t (by simpa using hc)] at hf
      injection hf with hf
      subst hf
      rcases List.mem_cons.mp hx with rfl | hx2
      · exact leB_refl _
      · exact hhd x hx2
    · rw [List.find?_cons_of_neg t (by simpa using hc)] at hf
      rcases List.mem_cons.mp hx with rfl | hx2
      · exact absurd (by simpa using hc) hxk
      · exact find?_ne_min key t htl r hf x hx2 hxk

theorem supl_eq_of_none_none {V : Type} (idx : IdIndex V) (k : List Nat)
    (hl : lastOpt (idx.takeWhile (fun kv => ltB kv.1 k)) = none)
    (hr : (idx.dropWhile (fun kv => ltB kv.1 k)).find?
        (fun kv => decide (kv.1 ≠ k)) = none) :
    shortestUniquePrefixLen idx k = 1 := by
  simp only [shortestUniquePrefixLen]
  rw [hl, hr]

theorem supl_eq_of_some_none {V : Type} (idx : IdIndex V) (k : List Nat) (lft : List Nat × V)
    (hl : lastOpt (idx.takeWhile (fun kv => ltB kv.1 k)) = some lft)
    (hr : (idx.dropWhile (fun kv => ltB kv.1 k)).find?
        (fun kv => decide (kv.1 ≠ k)) = none) :
    shortestUniquePrefixLen idx k = commonHexLen k lft.1 + 1 := by
  simp only [shortestUniquePrefixLen]
  rw [hl, hr]

theorem supl_eq_of_none_some {V : Type} (idx : IdIndex V) (k : List Nat) (r : List Nat × V)
    (hl : lastOpt (idx.takeWhile (fun kv => ltB kv.1 k)) = none)
    (hr : (idx.dropWhile (fun kv => ltB kv.1 k)).find?
        (fun kv => decide (kv.1 ≠ k)) = some r) :
    shortestUniquePrefixLen idx k = commonHexLen k r.1 + 1 := by
  simp only [shortestUniquePrefixLen]
  rw [hl, hr]

theorem supl_eq_of_some_some {V : Type} (idx : IdIndex V) (k : List Nat)
    (lft r : List Nat × V)
    (hl : lastOpt (idx.takeWhile (fun kv => ltB kv.1 k)) = some lft)
    (hr : (idx.dropWhile (fun kv => ltB kv.1 k)).find?
        (fun kv => decide (kv.1 ≠ k)) = some r) :
    shortestUniquePrefixLen idx k =
      Nat.max (commonHexLen k lft.1 + 1) (commonHexLen k r.1 + 1) := by
  simp only [shortestUniquePrefixLen]
  rw [hl, hr]

/-- Every other distinct key of a sorted index shares strictly fewer
hex digits with `key` than `shortest_unique_prefix_len` returns: the
common prefix with any key is bounded by the common prefix with the
nearer neighbor in sorted order. -/
theorem commonHexLen_lt_supl {V : Type} (idx : IdIndex V) (hs : KeySorted idx)
    (k : List Nat) :
    ∀ kv ∈ idx, kv.1 ≠ k →
      commonHexLen k kv.1 + 1 ≤ shortestUniquePrefixLen idx k := by
  intro kv hkv hne
  have hsplit : idx.takeWhile (fun kv => ltB kv.1 k) ++
      idx.dropWhile (fun kv => ltB kv.1 k) = idx :=
    List.takeWhile_append_dropWhile _ _
  have hkv' : kv ∈ idx.takeWhile (fun kv => ltB kv.1 k) ∨
      kv ∈ idx.dropWhile (fun kv => ltB kv.1 k) := by
    rw [← hsplit] at hkv
    exact List.mem_append.mp hkv
  rcases hkv' with hin | hin
  · -- kv is strictly below k: bound through the left neighbor
    obtain ⟨lft, hlft⟩ : ∃ m, lastOpt (idx.takeWhile (fun kv => ltB kv.1 k)) = some m := by
      cases hl : lastOpt (idx.takeWhile (fun kv => ltB kv.1 k)) with
      | none =>
        rw [lastOpt_eq_none _ hl] at hin
        simp at hin
      | some m => exact ⟨m, rfl⟩
    have hpsorted : KeySorted (idx.takeWhile (fun kv => ltB kv.1 k)) :=
      List.Pairwise.sublist (List.takeWhile_sublist _) hs
    have hmax : leB kv.1 lft.1 = true := lastOpt_max _ hpsorted lft hlft kv hin
    have hlftlt : ltB lft.1 k = true :=
      List.mem_takeWhile_imp (p := fun kv => ltB kv.1 k) (l := idx)
        (lastOpt_mem _ lft hlft)
    have hc : commonHexLen k kv.1 ≤ commonHexLen k lft.1 := by
      rw [commonHexLen, commonHexLen, lcpLen_comm (hexOf k) (hexOf kv.1),
        lcpLen_comm (hexOf k) (hexOf lft.1)]
      apply lcpLen_le_of_between_right
      · rw [ltB_hexOf]
        simpa [leB] using hmax
      · rw [ltB_hexOf]
        exact ltB_asymm _ _ hlftlt
    have hL : commonHexLen k lft.1 + 1 ≤ shortestUniquePrefixLen idx k := by
      cases hr : (idx.dropWhile (fun kv => ltB kv.1 k)).find?
          (fun kv => decide (kv.1 ≠ k)) with
      | none => rw [supl_eq_of_some_none idx k lft hlft hr]
      | some r =>
        rw [supl_eq_of_some_some idx k lft r hlft hr]
        exact Nat.le_max_left _ _
    omega
  · -- kv is at or above k: bound through the right neighbor
    obtain ⟨r, hr⟩ : ∃ r, (idx.dropWhile (fun kv => ltB kv.1 k)).find?
        (fun kv => decide (kv.1 ≠ k)) = some r := by
      cases hfr : (idx.dropWhile (fun kv => ltB kv.1 k)).find?
          (fun kv => decide (kv.1 ≠ k)) with
      | none =>
        exact absurd (by simpa using List.find?_eq_none.mp hfr kv hin) (by simpa using hne)
      | some r => exact ⟨r, rfl⟩
    have hssorted : KeySorted (idx.dropWhile (fun kv => ltB kv.1 k)) :=
      List.Pairwise.sublist (List.dropWhile_sublist _) hs
    have hrmin : leB r.1 kv.1 = true := find?_ne_min k _ hssorted r hr kv hin hne
    have hkr : ltB r.1 k = false :=
      dropWhile_ltB_all k idx hs r (List.mem_of_find?_eq_some hr)
    have hc : commonHexLen k kv.1 ≤ commonHexLen k r.1 := by
      rw [commonHexLen, commonHexLen]
      apply lcpLen_le_of_between
      · rw [ltB_hexOf]
        exact hkr
      · rw [ltB_hexOf]
        simpa [leB] using hrmin
    have hL : commonHexLen k r.1 + 1 ≤ shortestUniquePrefixLen idx k := by
      cases hl : lastOpt (idx.takeWhile (fun kv => ltB kv.1 k)) with
      | none => rw [supl_eq_of_none_some idx k r hl hr]
      | some lft =>
        rw [supl_eq_of_some_some idx k lft r hl hr]
        exact Nat.le_max_right _ _
    omega

theorem natMax_succ_sub_one_right {a b : Nat} (h : a ≤ b) :
    Nat.max (a + 1) (b + 1) - 1 = b := by
  have h1 : Nat.max (a + 1) (b + 1) = b + 1 := Nat.max_eq_right (by omega)
  omega

theorem natMax_succ_sub_one_left {a b : Nat} (h : b ≤ a) :
    Nat.max (a + 1) (b + 1) - 1 = a := by
  have h1 : Nat.max (a + 1) (b + 1) = a + 1 := Nat.max_eq_left (by omega)
  omega

theorem takeWhile_ltB_nil_of_all_eq {V : Type} (k : List Nat) :
    ∀ idx : List (List Nat × V), (∀ kv ∈ idx, kv.1 = k) →
      idx.takeWhile (fun kv => ltB kv.1 k) = []
  | [], _ => rfl
  | h :: t, hall => by
    have hk : h.1 = k := hall h (by simp)
    have : ltB h.1 k = false := by rw [hk]; exact ltB_irrefl k
    rw [List.takeWhile_cons_of_neg (by simpa using this)]

/-- Claim C7, counterexample to the claim as stated: on the singleton
index holding only the key `acd0` (bytes `[172, 208]`), the query key
`ac` (bytes `[172]`) yields `L = 3`, not the claimed `L = 1` for a
singleton index; moreover the prefix of `ac` of length `L` (its whole
hex, as `L` exceeds it) still matches the distinct stored key `acd0`,
so the claimed uniqueness of the `L`-digit prefix also fails. -/
theorem c7_counterexample :
    shortestUniquePrefixLen (fromVec [([172, 208], 0)]) [172] = 3 ∧
    isPfx ((hexOf [172]).take
        (shortestUniquePrefixLen (fromVec [([172, 208], 0)]) [172]))
      (hexOf [172, 208]) = true ∧
    ([172, 208] : List Nat) ≠ [172] := by
  refine ⟨by decide, by decide, by decide⟩

/-- Claim C7 (amended): for every key `k` and every index built by
`from_vec`, with `L = shortest_unique_prefix_len`: (1) whenever `L`
does not exceed the hex length of `k`, the `L`-digit hex prefix of `k`
matches no other distinct key of the index (if `L` exceeds it, some
stored key has `k` as a proper prefix and no prefix of `k` is unique);
(2) if the index holds any key distinct from `k`, the `(L-1)`-digit
prefix of `k` still matches some other distinct key; (3) if the index
holds no key distinct from `k` — in particular for the empty index and
for a singleton index holding `k` itself — then `L = 1`. -/
theorem c7_shortest_unique_amended {V : Type} (l : List (List Nat × V)) (k : List Nat) :
    (∀ kv ∈ fromVec l, kv.1 ≠ k →
      shortestUniquePrefixLen (fromVec l) k ≤ (hexOf k).length →
      isPfx ((hexOf k).take (shortestUniquePrefixLen (fromVec l) k))
        (hexOf kv.1) = false) ∧
    ((∃ kv ∈ fromVec l, kv.1 ≠ k) →
      ∃ kv ∈ fromVec l, kv.1 ≠ k ∧
        isPfx ((hexOf k).take (shortestUniquePrefixLen (fromVec l) k - 1))
          (hexOf kv.1) = true) ∧
    ((∀ kv ∈ fromVec l, kv.1 = k) → shortestUniquePrefixLen (fromVec l) k = 1) := by
  have hs : KeySorted (fromVec l) := keySorted_fromVec l
  refine ⟨?_, ?_, ?_⟩
  · intro kv hkv hne hLle
    cases hp : isPfx ((hexOf k).take (shortestUniquePrefixLen (fromVec l) k))
        (hexOf kv.1) with
    | false => rfl
    | true =>
      exfalso
      have h1 : shortestUniquePrefixLen (fromVec l) k ≤
          lcpLen (hexOf k) (hexOf kv.1) :=
        lcpLen_ge_of_take_isPfx _ _ _ hLle hp
      have h2 : commonHexLen k kv.1 + 1 ≤ shortestUniquePrefixLen (fromVec l) k :=
        commonHexLen_lt_supl (fromVec l) hs k kv hkv hne
      rw [commonHexLen] at h2
      omega
  · intro hex
    cases hl : lastOpt ((fromVec l).takeWhile (fun kv => ltB kv.1 k)) with
    | some lft =>
      have hmeml : lft ∈ fromVec l :=
        List.Sublist.mem (lastOpt_mem _ lft hl) (List.takeWhile_sublist _)
      have hnel : lft.1 ≠ k := by
        intro heq
        have hlt := List.mem_takeWhile_imp (p := fun kv => ltB kv.1 k) (l := fromVec l)
          (lastOpt_mem _ lft hl)
        simp only [heq, ltB_irrefl] at hlt
        exact Bool.noConfusion hlt
      cases hr : ((fromVec l).dropWhile (fun kv => ltB kv.1 k)).find?
          (fun kv => decide (kv.1 ≠ k)) with
      | none =>
        refine ⟨lft, hmeml, hnel, ?_⟩
        rw [supl_eq_of_some_none (fromVec l) k lft hl hr]
        simpa [commonHexLen] using take_lcpLen_isPfx (hexOf k) (hexOf lft.1)
      | some r =>
        by_cases hcmp : commonHexLen k lft.1 ≤ commonHexLen k r.1
        · refine ⟨r, ?_, ?_, ?_⟩
          · exact List.Sublist.mem (List.mem_of_find?_eq_some hr)
              (List.dropWhile_sublist _)
          · simpa using List.find?_some hr
          · have hrm : shortestUniquePrefixLen (fromVec l) k - 1 =
                commonHexLen k r.1 := by
              rw [supl_eq_of_some_some (fromVec l) k lft r hl hr]
              exact natMax_succ_sub_one_right hcmp
            rw [hrm]
            simpa [commonHexLen] using take_lcpLen_isPfx (hexOf k) (hexOf r.1)
        · refine ⟨lft, hmeml, hnel, ?_⟩
          have hrm : shortestUniquePrefixLen (fromVec l) k - 1 =
              commonHexLen k lft.1 := by
            rw [supl_eq_of_some_some (fromVec l) k lft r hl hr]
            exact natMax_succ_sub_one_left (by omega)
          rw [hrm]
          simpa [commonHexLen] using take_lcpLen_isPfx (hexOf k) (hexOf lft.1)
    | none =>
      cases hr : ((fromVec l).dropWhile (fun kv => ltB kv.1 k)).find?
          (fun kv => decide (kv.1 ≠ k)) with
      | none =>
        exfalso
        obtain ⟨kv, hkv, hne⟩ := hex
        have hsplit : (fromVec l).takeWhile (fun kv => ltB kv.1 k) ++
            (fromVec l).dropWhile (fun kv => ltB kv.1 k) = fromVec l :=
          List.takeWhile_append_dropWhile _ _
        rw [← hsplit] at hkv
        rcases List.mem_append.mp hkv with hin | hin
        · rw [lastOpt_eq_none _ hl] at hin
          simp at hin
        · exact absurd (by simpa using List.find?_eq_none.mp hr kv hin)
            (by simpa using hne)
      | some r =>
        refine ⟨r, ?_, ?_, ?_⟩
        · exact List.Sublist.mem (List.mem_of_find?_eq_some hr)
            (List.dropWhile_sublist _)
        · simpa using List.find?_some hr
        · rw [supl_eq_of_none_some (fromVec l) k r hl hr]
          simpa [commonHexLen] using take_lcpLen_isPfx (hexOf k) (hexOf r.1)
  · intro hall
    have hl : lastOpt ((fromVec l).takeWhile (fun kv => ltB kv.1 k)) = none := by
      rw [takeWhile_ltB_nil_of_all_eq k (fromVec l) hall]
      rfl
    have hr : ((fromVec l).dropWhile (fun kv => ltB kv.1 k)).find?
        (fun kv => decide (kv.1 ≠ k)) = none := by
      rw [List.find?_eq_none]
      intro x hx
      have hxm : x ∈ fromVec l := List.Sublist.mem hx (List.dropWhile_sublist _)
      simpa using hall x hxm
    exact supl_eq_of_none_none (fromVec l) k hl hr

/-- Witness for the amended C7 on the two-key index `{ab, acd0}` with
`k = ab` (so `L = 2`), and on the singleton index `{a0}` with its own
key (so `L = 1`). -/
theorem c7_shortest_unique_amended_witness :
    isPfx ((hexOf [171]).take
        (shortestUniquePrefixLen (fromVec [([171], 0), ([172, 208], 1)]) [171]))
      (hexOf [172, 208]) = false ∧
    (∃ kv ∈ fromVec [([171], 0), ([172, 208], 1)], kv.1 ≠ [171] ∧
      isPfx ((hexOf [171]).take
          (shortestUniquePrefixLen (fromVec [([171], 0), ([172, 208], 1)]) [171] - 1))
        (hexOf kv.1) = true) ∧
    shortestUniquePrefixLen (fromVec [([160], 5)]) [160] = 1 := by
  refine ⟨?_, ?_, ?_⟩
  · exact (c7_shortest_unique_amended [([171], 0), ([172, 208], 1)] [171]).1
      ([172, 208], 1) (by decide) (by decide) (by decide)
  · exact (c7_shortest_unique_amended [([171], 0), ([172, 208], 1)] [171]).2.1
      ⟨([172, 208], 1), by decide, by decide⟩
  · exact (c7_shortest_unique_amended [([160], 5)] [160]).2.2 (by decide)

/-- Claim C8, counterexample: on the index built from the keys
`{ab, acd0, acd0, a0, ba}` (with the duplicate `acd0`), the
shortest-unique-prefix length of `acd0` is 2, not the claimed 3 — the
left neighbor `ab` and right neighbor `ba` share at most one hex digit
with `acd0` (the value 3 belongs to the spec's other test index, which
holds `acf0`). -/
theorem c8_counterexample :
    shortestUniquePrefixLen
        (fromVec [([171], 0), ([172, 208], 1), ([172, 208], 2), ([160], 3), ([186], 4)])
        [172, 208] = 2 ∧
    ¬ shortestUniquePrefixLen
        (fromVec [([171], 0), ([172, 208], 1), ([172, 208], 2), ([160], 3), ([186], 4)])
        [172, 208] = 3 := by
  refine ⟨by decide, by decide⟩

/-- Claim C8 (amended): on the `IdIndex` built from the keys
`{ab, acd0, acd0, a0, ba}` (bytes: `ab = [171]`, `acd0 = [172, 208]`,
`a0 = [160]`, `ba = [186]`, duplicate `acd0` included),
`shortest_unique_prefix_len` returns 2 for `a0`, 1 for `ba`, 2 for
`ab`, 2 (not 3) for `acd0`, and 1 for the absent key `c0 = [192]`. -/
theorem c8_shortest_unique_scenario :
    shortestUniquePrefixLen
        (fromVec [([171], 0), ([172, 208], 1), ([172, 208], 2), ([160], 3), ([186], 4)])
        [160] = 2 ∧
    shortestUniquePrefixLen
        (fromVec [([171], 0), ([172, 208], 1), ([172, 208], 2), ([160], 3), ([186], 4)])
        [186] = 1 ∧
    shortestUniquePrefixLen
        (fromVec [([171], 0), ([172, 208], 1), ([172, 208], 2), ([160], 3), ([186], 4)])
        [171] = 2 ∧
    shortestUniquePrefixLen
        (fromVec [([171], 0), ([172, 208], 1), ([172, 208], 2), ([160], 3), ([186], 4)])
        [172, 208] = 2 ∧
    shortestUniquePrefixLen
        (fromVec [([171], 0), ([172, 208], 1), ([172, 208], 2), ([160], 3), ([186], 4)])
        [192] = 1 := by
  refine ⟨by decide, by decide, by decide, by decide, by decide⟩

/-! ### IdPrefixContext (`id_prefix.rs`) -/

/-- `PrefixDisambiguationError`: any failure while building the scope
indexes (revset resolution, evaluation, or commit read). -/
inductive PrefixDisambiguationError where
  | failed
deriving DecidableEq, Repr

/-- The pair of scope indexes: commit-id → commit-id and change-id →
commit-id. -/
structure Indexes where
  commitIndex : IdIndex (List Nat)
  changeIndex : IdIndex (List Nat)

/-- Modelled from the spec: the repo collaborator (not under `src/`);
the only operation Claim C9 needs is the global
`repo.index().resolve_prefix`. -/
structure MRepo where
  indexResolveCommitIdPfx : List Nat → PrefixResolution (List Nat)

/-- `DisambiguationData`. Modelled from the spec: the revset
expression, workspace id, and lazily initialized `OnceCell` of the
source are absorbed into the outcome of the index build ("resolve the
revset expression …; evaluate; iterate commits; … any failure … is
reported as a PrefixDisambiguationError"); memoization of the build is
unobservable for a pure build function. -/
structure DisambiguationData where
  buildIndexes : MRepo → Except PrefixDisambiguationError Indexes

/-- `IdPrefixContext`: an optional disambiguation scope. -/
structure IdPrefixContext where
  disambiguation : Option DisambiguationData

/-- `IdPrefixContext::disambiguation_indexes`: errors from the scope
build are swallowed (`.ok()`) and treated as if no revset was
specified. -/
def disambiguationIndexes (ctx : IdPrefixContext) (repo : MRepo) : Option Indexes :=
  ctx.disambiguation.bind (fun d => (d.buildIndexes repo).toOption)

/-- `IdPrefixContext::resolve_commit_prefix`: if the scope resolves
the prefix to a `SingleMatch`, assert the value group has exactly one
entry (`none` models that assertion failing) and return it; in every
other case fall through to the global index. -/
def resolveCommitIdPfx (ctx : IdPrefixContext) (repo : MRepo) (p : List Nat) :
    Option (PrefixResolution (List Nat)) :=
  match disambiguationIndexes ctx repo with
  | some idxs =>
    match resolvePrefixVals idxs.commitIndex p with
    | .singleMatch [i] => some (.singleMatch i)
    | .singleMatch _ => none
    | _ => some (repo.indexResolveCommitIdPfx p)
  | none => some (repo.indexResolveCommitIdPfx p)

/-- Claim C9: `resolve_commit_prefix` returns the scoped result
exactly when a disambiguation scope is configured, its index build
succeeds, and the scoped commit index resolves the prefix to
`SingleMatch`; with no scope, with a failed (swallowed) scope build,
or with a scoped `AmbiguousMatch` or `NoMatch`, it returns the global
index's result `repo.index().resolve_prefix(prefix)`. -/
theorem c9_resolve_commit_delegation (ctx : IdPrefixContext) (repo : MRepo)
    (p : List Nat) :
    (ctx.disambiguation = none →
      resolveCommitIdPfx ctx repo p = some (repo.indexResolveCommitIdPfx p)) ∧
    (∀ d, ctx.disambiguation = some d →
      d.buildIndexes repo = .error .failed →
      resolveCommitIdPfx ctx repo p = some (repo.indexResolveCommitIdPfx p)) ∧
    (∀ d idxs, ctx.disambiguation = some d → d.buildIndexes repo = .ok idxs →
      (resolvePrefixVals idxs.commitIndex p = .ambiguousMatch ∨
        resolvePrefixVals idxs.commitIndex p = .noMatch) →
      resolveCommitIdPfx ctx repo p = some (repo.indexResolveCommitIdPfx p)) ∧
    (∀ d idxs i, ctx.disambiguation = some d → d.buildIndexes repo = .ok idxs →
      resolvePrefixVals idxs.commitIndex p = .singleMatch [i] →
      resolveCommitIdPfx ctx repo p = some (.singleMatch i)) := by
  refine ⟨?_, ?_, ?_, ?_⟩
  · intro h
    simp [resolveCommitIdPfx, disambiguationIndexes, h]
  · intro d hd hb
    simp [resolveCommitIdPfx, disambiguationIndexes, hd, hb, Except.toOption]
  · intro d idxs hd hb hres
    rcases hres with hres | hres <;>
      simp [resolveCommitIdPfx, disambiguationIndexes, hd, hb, Except.toOption, hres]
  · intro d idxs i hd hb hres
    simp [resolveCommitIdPfx, disambiguationIndexes, hd, hb, Except.toOption, hres]

/-- Witness for C9: all four delegation cases at concrete contexts
(scope holding only the commit id `ab = [171]`). -/
theorem c9_resolve_commit_delegation_witness :
    resolveCommitIdPfx ⟨none⟩ ⟨fun _ => .noMatch⟩ [1] = some .noMatch ∧
    resolveCommitIdPfx ⟨some ⟨fun _ => .error .failed⟩⟩ ⟨fun _ => .noMatch⟩ [1] =
      some .noMatch ∧
    resolveCommitIdPfx ⟨some ⟨fun _ => .ok ⟨fromVec [([171], [171])], []⟩⟩⟩
      ⟨fun _ => .ambiguousMatch⟩ [9] = some .ambiguousMatch ∧
    resolveCommitIdPfx ⟨some ⟨fun _ => .ok ⟨fromVec [([171], [171])], []⟩⟩⟩
      ⟨fun _ => .noMatch⟩ [10] = some (.singleMatch [171]) := by
  refine ⟨?_, ?_, ?_, ?_⟩
  · exact (c9_resolve_commit_delegation ⟨none⟩ ⟨fun _ => .noMatch⟩ [1]).1 rfl
  · exact (c9_resolve_commit_delegation ⟨some ⟨fun _ => .error .failed⟩⟩
      ⟨fun _ => .noMatch⟩ [1]).2.1 ⟨fun _ => .error .failed⟩ rfl rfl
  · exact (c9_resolve_commit_delegation ⟨some ⟨fun _ => .ok ⟨fromVec [([171], [171])], []⟩⟩⟩
      ⟨fun _ => .ambiguousMatch⟩ [9]).2.2.1 ⟨fun _ => .ok ⟨fromVec [([171], [171])], []⟩⟩
      ⟨fromVec [([171], [171])], []⟩ rfl rfl (Or.inr (by decide))
  · exact (c9_resolve_commit_delegation ⟨some ⟨fun _ => .ok ⟨fromVec [([171], [171])], []⟩⟩⟩
      ⟨fun _ => .noMatch⟩ [10]).2.2.2 ⟨fun _ => .ok ⟨fromVec [([171], [171])], []⟩⟩
      ⟨fromVec [([171], [171])], []⟩ [171] rfl rfl (by decide)

/-! ### Tree data model (`tree.rs` and the backend collaborators) -/

/-- Opaque content-addressed object ids (`FileId`, `TreeId`,
`ConflictId`, …) are collapsed to naturals; basenames
(`RepoPathComponent`) are also naturals, so that entry order is the
numeric order standing in for the store's basename order; a `RepoPath`
is the list of components from the root. -/
abbrev ObjId := Nat

/-- `TreeValue` — `File{id, executable}`, `Symlink(id)`, `Tree(id)`,
`GitSubmodule(id)`, `Conflict(id)`. -/
inductive TreeValue where
  | file (id : ObjId) (executable : Bool)
  | symlink (id : ObjId)
  | tree (id : ObjId)
  | gitSubmodule (id : ObjId)
  | conflict (id : ObjId)
deriving DecidableEq, Repr

/-- `ConflictTerm` — one signed term of a conflict. -/
structure ConflictTerm where
  value : TreeValue
deriving DecidableEq, Repr

/-- `Conflict` — negative terms (`removes`) and positive terms
(`adds`). -/
structure Conflict where
  removes : List ConflictTerm
  adds : List ConflictTerm
deriving DecidableEq, Repr

/-- Modelled from the spec: `backend::Tree`'s entry table (not under
`src/`) — entries ordered by basename (store contract). -/
abbrev TreeData := List (Nat × TreeValue)

/-- A tree snapshot: directory path, tree id, entry table (the store
handle is carried separately by the model). -/
structure Tree where
  dir : List Nat
  id : ObjId
  data : TreeData
deriving DecidableEq, Repr

/-- `backend::Tree::value(basename)`. -/
def lookupValue : TreeData → Nat → Option TreeValue
  | [], _ => none
  | (n, v) :: t, name => if n = name then some v else lookupValue t name

/-- `backend::Tree::set(basename, value)`, keeping basename order. -/
def setValue : TreeData → Nat → TreeValue → TreeData
  | [], n, v => [(n, v)]
  | (n', v') :: t, n, v =>
    if n < n' then (n, v) :: (n', v') :: t
    else if n = n' then (n, v) :: t
    else (n', v') :: setValue t n v

/-- `backend::Tree::remove(basename)`. -/
def removeValue : TreeData → Nat → TreeData
  | [], _ => []
  | (n', v') :: t, n => if n' = n then t else (n', v') :: removeValue t n

/-- `Diff<TreeValue>` — `Modified`, `Added`, `Removed`. -/
inductive Diff where
  | modified (before after : TreeValue)
  | added (after : TreeValue)
  | removed (before : TreeValue)
deriving DecidableEq, Repr

/-- `TreeEntryDiffIterator` over two basename-sorted entry tables; the
lazy pairwise merge is written with an explicit fuel that the wrapper
`diffEntries` sets to the total length, which the merge never
exceeds. -/
def diffEntriesGo : Nat → TreeData → TreeData →
    List (Nat × Option TreeValue × Option TreeValue)
  | 0, _, _ => []
  | _ + 1, [], [] => []
  | f + 1, (n, v) :: t1, [] => (n, some v, none) :: diffEntriesGo f t1 []
  | f + 1, [], (n, v) :: t2 => (n, none, some v) :: diffEntriesGo f [] t2
  | f + 1, (n1, v1) :: t1, (n2, v2) :: t2 =>
    if n1 < n2 then (n1, some v1, none) :: diffEntriesGo f t1 ((n2, v2) :: t2)
    else if n2 < n1 then (n2, none, some v2) :: diffEntriesGo f ((n1, v1) :: t1) t2
    else if v1 ≠ v2 then (n1, some v1, some v2) :: diffEntriesGo f t1 t2
    else diffEntriesGo f t1 t2

/-- `diff_entries(tree1, tree2)`: entry removed / added / modified (or
silently skipped when equal), in strictly ascending basename order. -/
def diffEntries (t1 t2 : TreeData) : List (Nat × Option TreeValue × Option TreeValue) :=
  diffEntriesGo (t1.length + t2.length) t1 t2

/-! ### Recursive tree diff (`TreeDiffIterator`) -/

/-- Modelled from the spec: the matcher collaborator (not under
`src/`) — `visit(dir)` reduced to its `is_nothing()` bit, and
`matches(path)`. -/
structure Matcher where
  visitNothing : List Nat → Bool
  matchesPath : List Nat → Bool

/-- `EverythingMatcher`. -/
def everythingMatcher : Matcher := ⟨fun _ => false, fun _ => true⟩

/-- Modelled from the spec: the store's tree table used by the diff
walk; `known_sub_tree`'s `get_tree(..).unwrap()` is modelled as a
total lookup (ids met during a diff walk are present in the store). -/
abbrev TreeSource := ObjId → TreeData

/-- `matches!(value, Some(TreeValue::Tree(_)))`. -/
def isTreeVal : Option TreeValue → Bool
  | some (.tree _) => true
  | _ => false

/-- The subdirectory snapshot for one side of a diff entry: the child
tree when that side is a `Tree`, else the null tree. -/
def subdirData (ts : TreeSource) : Option TreeValue → TreeData
  | some (.tree id) => ts id
  | _ => []

/-- One stack item of `TreeDiffIterator`: a directory cursor with its
remaining entry diffs, or a deferred file event (used to yield the
`Added` of a file replacing a directory after the directory has
drained). -/
inductive TreeDiffItem where
  | dirItem (path : List Nat)
      (entries : List (Nat × Option TreeValue × Option TreeValue))
  | fileItem (path : List Nat) (d : Diff)
deriving DecidableEq, Repr

/-- Result of one iteration of the `TreeDiffIterator::next` loop on
the top stack item: an optional emitted event and the items replacing
the top (head = new top), or the `(None, None) => panic!` arm. -/
inductive DiffStep where
  | next (out : Option (List Nat × Diff)) (pushed : List TreeDiffItem)
  | fault
deriving DecidableEq, Repr

/-- One iteration of `TreeDiffIterator::next`: pop a deferred file
event; pop an exhausted directory cursor; otherwise process the
cursor's next entry — push a subdirectory cursor when either side is a
tree and the matcher visits the path, and emit / defer the leaf diff
when the matcher matches the path (the deferred `Added` is inserted
just below the pushed subdirectory cursor). -/
def diffStep (ts : TreeSource) (m : Matcher) : TreeDiffItem → DiffStep
  | .fileItem path d => .next (some (path, d)) []
  | .dirItem _ [] => .next none []
  | .dirItem path ((name, before, after) :: rest) =>
    let filePath := path ++ [name]
    let treeBefore := isTreeVal before
    let treeAfter := isTreeVal after
    let subdirItems : List TreeDiffItem :=
      if (treeBefore || treeAfter) && !(m.visitNothing filePath) then
        [.dirItem filePath (diffEntries (subdirData ts before) (subdirData ts after))]
      else []
    if m.matchesPath filePath then
      if !treeBefore && treeAfter then
        match before with
        | some fileBefore =>
          .next (some (filePath, .removed fileBefore))
            (subdirItems ++ [.dirItem path rest])
        | none => .next none (subdirItems ++ [.dirItem path rest])
      else if treeBefore && !treeAfter then
        match after with
        | some fileAfter =>
          .next none
            (subdirItems ++ [.fileItem filePath (.added fileAfter), .dirItem path rest])
        | none => .next none (subdirItems ++ [.dirItem path rest])
      else if !treeBefore && !treeAfter then
        match before, after with
        | some fb, some fa =>
          .next (some (filePath, .modified fb fa)) (subdirItems ++ [.dirItem path rest])
        | none, some fa =>
          .next (some (filePath, .added fa)) (subdirItems ++ [.dirItem path rest])
        | some fb, none =>
          .next (some (filePath, .removed fb)) (subdirItems ++ [.dirItem path rest])
        | none, none => .fault
      else .next none (subdirItems ++ [.dirItem path rest])
    else .next none (subdirItems ++ [.dirItem path rest])

/-- How a bounded run of the diff iterator ended: the stack drained
(with the unused fuel), the fuel ran out (a modelling artifact — real
trees are finite), or the `panic!` arm was hit. -/
inductive RunEnd where
  | completed (fuelLeft : Nat)
  | outOfFuel (stack : List TreeDiffItem)
  | faulted
deriving DecidableEq, Repr

/-- Drive `TreeDiffIterator` to completion, collecting the emitted
`(RepoPath, Diff)` events in order. -/
def runDiff (ts : TreeSource) (m : Matcher) :
    Nat → List TreeDiffItem → List (List Nat × Diff) × RunEnd
  | 0, stack => ([], .outOfFuel stack)
  | fuel + 1, [] => ([], .completed (fuel + 1))
  | fuel + 1, top :: rest =>
    match diffStep ts m top with
    | .fault => ([], .faulted)
    | .next out pushed =>
      let r := runDiff ts m fuel (pushed ++ rest)
      (out.toList ++ r.1, r.2)

/-- `recursive_tree_diff(root1, root2, matcher)`: start from the root
cursor iff the matcher visits the root at all. -/
def treeDiff (ts : TreeSource) (m : Matcher) (fuel : Nat) (t1 t2 : TreeData) :
    List (List Nat × Diff) × RunEnd :=
  runDiff ts m fuel
    (if m.visitNothing [] then [] else [.dirItem [] (diffEntries t1 t2)])

theorem runDiff_completed_pos (ts : TreeSource) (m : Matcher) :
    ∀ (f : Nat) (stack : List TreeDiffItem) (o : List (List Nat × Diff)) (f₁ : Nat),
      runDiff ts m f stack = (o, .completed f₁) → 1 ≤ f₁
  | 0, stack, o, f₁, h => by simp [runDiff] at h
  | f + 1, [], o, f₁, h => by
    simp [runDiff] at h
    omega
  | f + 1, top :: rest, o, f₁, h => by
    rw [runDiff] at h
    cases hstep : diffStep ts m top with
    | fault => rw [hstep] at h; simp at h
    | next out pushed =>
      rw [hstep] at h
      simp only at h
      cases hrec : runDiff ts m f (pushed ++ rest) with
      | mk outs e =>
        rw [hrec] at h
        simp only [Prod.mk.injEq] at h
        cases h.2
        exact runDiff_completed_pos ts m f (pushed ++ rest) outs f₁ (by rw [hrec])

/-- Frame property of the diff walk: a step replaces only the top of
the stack, so a run that completes on a stack `A` runs unchanged ahead
of whatever sits below; the leftover fuel then processes `B`. -/
theorem runDiff_append (ts : TreeSource) (m : Matcher) :
    ∀ (f : Nat) (A : List TreeDiffItem) (o : List (List Nat × Diff)) (f₁ : Nat),
      runDiff ts m f A = (o, .completed f₁) →
      ∀ B, runDiff ts m f (A ++ B) =
        (o ++ (runDiff ts m f₁ B).1, (runDiff ts m f₁ B).2)
  | 0, A, o, f₁, h => by simp [runDiff] at h
  | f + 1, [], o, f₁, h => by
    simp [runDiff] at h
    obtain ⟨rfl, rfl⟩ := h
    intro B
    simp
  | f + 1, top :: A', o, f₁, h => by
    intro B
    rw [runDiff] at h
    rw [List.cons_append, runDiff]
    cases hstep : diffStep ts m top with
    | fault =>
      rw [hstep] at h
      simp at h
    | next out pushed =>
      rw [hstep] at h
      simp only at h ⊢
      cases hrec : runDiff ts m f (pushed ++ A') with
      | mk outs e =>
        rw [hrec] at h
        simp only [Prod.mk.injEq] at h
        obtain ⟨ho, he⟩ := h
        cases he
        have ih := runDiff_append ts m f (pushed ++ A') outs f₁ (by rw [hrec]) B
        rw [← List.append_assoc]
        rw [ih, ← ho]
        simp

/-- Claim C2: when a diff entry has a tree on the before side and a
non-tree on the after side and the matcher matches the path, the
deferred `Added(after)` is emitted only after every event of the
replaced subdirectory: one step pushes the subdirectory cursor on top
of the deferred file item, so the whole run is the subdirectory's
events, then `Added`, then the rest of the walk. Concretely, diffing a
base holding directory `d/` (basename 0, tree id 2) with files `d/x`
(basename 1) and `d/y` (basename 2) against a side that deletes `d/`
and adds a file `d` emits, in order: `Removed(d/x)`, `Removed(d/y)`,
`Added(d)`. -/
theorem c2_dir_replaced_by_file_order :
    (∀ (ts : TreeSource) (m : Matcher) (path : List Nat) (name : Nat) (tid : ObjId)
      (av : TreeValue) (rest : List (Nat × Option TreeValue × Option TreeValue))
      (stackRest : List TreeDiffItem) (f f₁ : Nat) (O : List (List Nat × Diff)),
      (∀ i, av ≠ .tree i) →
      m.matchesPath (path ++ [name]) = true →
      m.visitNothing (path ++ [name]) = false →
      runDiff ts m f [.dirItem (path ++ [name]) (diffEntries (ts tid) [])] =
        (O, .completed f₁) →
      runDiff ts m (f + 1)
          (.dirItem path ((name, some (.tree tid), some av) :: rest) :: stackRest) =
        (O ++ (path ++ [name], Diff.added av) ::
            (runDiff ts m (f₁ - 1) (.dirItem path rest :: stackRest)).1,
          (runDiff ts m (f₁ - 1) (.dirItem path rest :: stackRest)).2)) ∧
    treeDiff (fun id => if id = 2 then [(1, .file 10 false), (2, .file 11 false)] else [])
        everythingMatcher 20 [(0, .tree 2)] [(0, .file 12 false)] =
      ([([0, 1], .removed (.file 10 false)), ([0, 2], .removed (.file 11 false)),
        ([0], .added (.file 12 false))], .completed 14) := by
  constructor
  · intro ts m path name tid av rest stackRest f f₁ O hav hm hv hrun
    have hpos : 1 ≤ f₁ := runDiff_completed_pos ts m f _ O f₁ hrun
    have hta : isTreeVal (some av) = false := by
      cases av
      case tree i => exact absurd rfl (hav i)
      all_goals rfl
    have hsub : subdirData ts (some av) = [] := by
      cases av
      case tree i => exact absurd rfl (hav i)
      all_goals rfl
    have hstep : diffStep ts m
        (.dirItem path ((name, some (.tree tid), some av) :: rest)) =
        .next none
          [.dirItem (path ++ [name]) (diffEntries (ts tid) []),
            .fileItem (path ++ [name]) (.added av),
            .dirItem path rest] := by
      rw [diffStep]
      simp [hta, hsub, hm, hv,
        show isTreeVal (some (TreeValue.tree tid)) = true from rfl,
        show subdirData ts (some (TreeValue.tree tid)) = ts tid from rfl]
    rw [runDiff, hstep]
    simp only [Option.toList_none, List.nil_append]
    have hframe := runDiff_append ts m f
      [.dirItem (path ++ [name]) (diffEntries (ts tid) [])] O f₁ hrun
      (.fileItem (path ++ [name]) (.added av) :: .dirItem path rest :: stackRest)
    rw [List.singleton_append] at hframe
    rw [show ([.dirItem (path ++ [name]) (diffEntries (ts tid) []),
        .fileItem (path ++ [name]) (Diff.added av),
        .dirItem path rest] ++ stackRest : List TreeDiffItem) =
      .dirItem (path ++ [name]) (diffEntries (ts tid) []) ::
        .fileItem (path ++ [name]) (Diff.added av) ::
        .dirItem path rest :: stackRest from rfl]
    rw [hframe]
    obtain ⟨f₂, rfl⟩ : ∃ f₂, f₁ = f₂ + 1 := ⟨f₁ - 1, by omega⟩
    rw [runDiff]
    rw [show diffStep ts m (.fileItem (path ++ [name]) (Diff.added av)) =
      .next (some (path ++ [name], Diff.added av)) [] from rfl]
    simp only [List.nil_append, Option.toList_some, Nat.add_sub_cancel]
    simp
  · rfl

/-- Witness for C2's general ordering statement, at the concrete
directory-replaced-by-file scenario (fuel 11; the subdirectory drains
in 10 steps leaving 7, the deferred `Added` follows). -/
theorem c2_dir_replaced_by_file_order_witness :
    runDiff (fun id => if id = 2 then [(1, .file 10 false), (2, .file 11 false)] else [])
        everythingMatcher 11
        [.dirItem [] [(0, some (.tree 2), some (.file 12 false))]] =
      ([([0, 1], .removed (.file 10 false)), ([0, 2], .removed (.file 11 false)),
        ([0], .added (.file 12 false))], .completed 5) := by
  have h := (c2_dir_replaced_by_file_order).1
    (fun id => if id = 2 then [(1, .file 10 false), (2, .file 11 false)] else [])
    everythingMatcher [] 0 2 (.file 12 false) [] [] 10 7
    [([0, 1], .removed (.file 10 false)), ([0, 2], .removed (.file 11 false))]
    (fun i h => TreeValue.noConfusion h) rfl rfl (by rfl)
  exact h.trans (by rfl)

/-! ### The store and the three-way merge (`tree.rs`) -/

/-- `files::MergeResult` — the external textual merger's outcome (the
conflict hunks of a failed merge are irrelevant here). -/
inductive MergeResult where
  | resolved (content : List Nat)
  | conflicted
deriving DecidableEq, Repr

/-- Modelled from the spec: the store collaborator (§6, not under
`src/`): finite association tables for trees, conflicts and file
blobs; the designated empty-tree id; a counter allocating fresh ids
for content not stored yet (content addressing: writing content that
is already present returns its existing id); and the external file
merger `files::merge`. -/
structure Store where
  trees : List (ObjId × TreeData)
  conflicts : List (ObjId × Conflict)
  files : List (ObjId × List Nat)
  emptyTreeId : ObjId
  nextId : ObjId
  fileMerge : List (List Nat) → List (List Nat) → MergeResult

/-- Table lookup by id. -/
def lookupTbl {α : Type} : List (ObjId × α) → ObjId → Option α
  | [], _ => none
  | (i, a) :: t, id => if i = id then some a else lookupTbl t id

/-- Find the id of already-stored content (content addressing). -/
def findByVal {α : Type} [DecidableEq α] : List (ObjId × α) → α → Option ObjId
  | [], _ => none
  | (i, a) :: t, v => if a = v then some i else findByVal t v

/-- `Store::get_tree(dir, id)`; `none` is a `BackendError`. -/
def getTree (st : Store) (dir : List Nat) (id : ObjId) : Option Tree :=
  (lookupTbl st.trees id).map (fun d => ⟨dir, id, d⟩)

/-- `Store::write_tree(dir, tree)`. -/
def writeTree (st : Store) (dir : List Nat) (d : TreeData) : ObjId × Store :=
  match findByVal st.trees d with
  | some id => (id, st)
  | none =>
    (st.nextId, { st with trees := st.trees ++ [(st.nextId, d)], nextId := st.nextId + 1 })

/-- `Store::read_conflict(path, id)`. -/
def readConflict (st : Store) (id : ObjId) : Option Conflict :=
  lookupTbl st.conflicts id

/-- `Store::write_conflict(path, conflict)`. -/
def writeConflict (st : Store) (path : List Nat) (c : Conflict) : ObjId × Store :=
  match findByVal st.conflicts c with
  | some id => (id, st)
  | none =>
    (st.nextId,
      { st with conflicts := st.conflicts ++ [(st.nextId, c)], nextId := st.nextId + 1 })

/-- `Store::read_file(path, id)` together with `read_to_end`. -/
def readFile (st : Store) (path : List Nat) (id : ObjId) : Option (List Nat) :=
  lookupTbl st.files id

/-- `Store::write_file(path, contents)`. -/
def writeFile (st : Store) (path : List Nat) (content : List Nat) : ObjId × Store :=
  match findByVal st.files content with
  | some id => (id, st)
  | none =>
    (st.nextId,
      { st with files := st.files ++ [(st.nextId, content)], nextId := st.nextId + 1 })

/-- The error channel of the merge: `TreeMergeError`'s two variants
(`BackendError` from any store call, `ReadError` with the offending
file id), plus fuel exhaustion, a modelling artifact of making the
recursion explicit. -/
inductive MErr where
  | backend
  | readError (fileId : ObjId)
  | outOfFuel
deriving DecidableEq, Repr

/-- A merge outcome: a value, an error, or a failed `assert_eq!`. -/
inductive MResult (α : Type) where
  | ok (a : α)
  | err (e : MErr)
  | assertFail
deriving DecidableEq, Repr

/-! ### Conflict simplification (`simplify_conflict`) -/

/-- `tree_value_to_conflict`: a `Conflict` value reads the stored
conflict (`none` = `BackendError`); any other value becomes the
trivial conflict with that single positive term. -/
def treeValueToConflict (st : Store) (path : List Nat) (value : TreeValue) :
    Option Conflict :=
  match value with
  | .conflict id => readConflict st id
  | other => some ⟨[], [⟨other⟩]⟩

/-- The adds loop of `simplify_conflict`'s flattening pass: a positive
term that is a `Conflict` inlines the stored conflict's removes into
the new removes and its adds into the new adds; any other term stays a
positive term. Returns the (removes, adds) contributions in traversal
order. -/
def flattenAdds (st : Store) (path : List Nat) :
    List ConflictTerm → Except MErr (List ConflictTerm × List ConflictTerm)
  | [] => .ok ([], [])
  | t :: ts =>
    match t.value with
    | .conflict id =>
      match treeValueToConflict st path (.conflict id) with
      | none => .error .backend
      | some c =>
        match flattenAdds st path ts with
        | .ok (rs, as1) => .ok (c.removes ++ rs, c.adds ++ as1)
        | .error e => .error e
    | _ =>
      match flattenAdds st path ts with
      | .ok (rs, as1) => .ok (rs, t :: as1)
      | .error e => .error e

/-- The removes loop of the flattening pass: a negative term that is a
`Conflict` inlines the inner adds into the new removes and the inner
removes into the new adds (sign inversion); any other term stays a
negative term. -/
def flattenRemoves (st : Store) (path : List Nat) :
    List ConflictTerm → Except MErr (List ConflictTerm × List ConflictTerm)
  | [] => .ok ([], [])
  | t :: ts =>
    match t.value with
    | .conflict id =>
      match treeValueToConflict st path (.conflict id) with
      | none => .error .backend
      | some c =>
        match flattenRemoves st path ts with
        | .ok (rs, as1) => .ok (c.adds ++ rs, c.removes ++ as1)
        | .error e => .error e
    | _ =>
      match flattenRemoves st path ts with
      | .ok (rs, as1) => .ok (t :: rs, as1)
      | .error e => .error e

/-- Drop the first remove whose value equals `v`, if any (one scan of
the inner `for (remove_index, remove)` loop). -/
def removeFirstTerm (v : TreeValue) : List ConflictTerm → Option (List ConflictTerm)
  | [] => none
  | r :: rs => if r.value = v then some rs else (removeFirstTerm v rs).map (r :: ·)

/-- The pair-cancellation loop of `simplify_conflict`: walk the adds
in order; an add whose value has a matching remove is dropped together
with the first such remove (the `add_index` bookkeeping of the
imperative loop — increment, and on a hit remove both entries and
step back — amounts exactly to this); every other term keeps its
position. Returns (remaining adds, remaining removes). -/
def cancelPairs : List ConflictTerm → List ConflictTerm →
    List ConflictTerm × List ConflictTerm
  | [], removes => ([], removes)
  | a :: adds1, removes =>
    match removeFirstTerm a.value removes with
    | some removes' => cancelPairs adds1 removes'
    | none =>
      let r := cancelPairs adds1 removes
      (a :: r.1, r.2)

/-- `simplify_conflict`: run the adds loop, then the removes loop —
both appending to the shared `new_removes`/`new_adds` accumulators —
then cancel add/remove pairs with equal values. -/
def simplifyConflict (st : Store) (path : List Nat) (c : Conflict) :
    Except MErr Conflict :=
  match flattenAdds st path c.adds with
  | .error e => .error e
  | .ok (r1, a1) =>
    match flattenRemoves st path c.removes with
    | .error e => .error e
    | .ok (r2, a2) =>
      let p := cancelPairs (a1 ++ a2) (r1 ++ r2)
      .ok ⟨p.2, p.1⟩

/-! ### File-content conflict resolution (`try_resolve_file_conflict`) -/

/-- The term scan of `try_resolve_file_conflict`: collect the file ids
and count the executable and regular file terms; `none` as soon as any
term is not a `File` (the source keeps one running `exec_delta` /
`regular_delta` across the removes and adds loops; counting each list
and subtracting is the same sums). -/
def scanFileTerms : List ConflictTerm → Option (List ObjId × Nat × Nat)
  | [] => some ([], 0, 0)
  | t :: ts =>
    match t.value with
    | .file id ex =>
      match scanFileTerms ts with
      | some (ids, e, r) =>
        some (id :: ids, (if ex then e + 1 else e), (if ex then r else r + 1))
      | none => none
    | _ => none

/-- Read every blob in order, failing with the first unreadable file
id (`TreeMergeError::ReadError`). -/
def readAll (st : Store) (path : List Nat) : List ObjId → Except ObjId (List (List Nat))
  | [] => .ok []
  | id :: ids =>
    match readFile st path id with
    | none => .error id
    | some content =>
      match readAll st path ids with
      | .ok rest => .ok (content :: rest)
      | .error e => .error e

/-- The tail of `try_resolve_file_conflict` once the executable bit is
settled: read the removed and added blobs and invoke the external
merger; a clean resolution returns the merged content with the bit, a
conflicted merge returns no resolution. -/
def tryResolveContents (st : Store) (filename : List Nat)
    (removedIds addedIds : List ObjId) (executable : Bool) :
    Except MErr (Option (List Nat × Bool)) :=
  match readAll st filename removedIds with
  | .error id => .error (.readError id)
  | .ok removedContents =>
    match readAll st filename addedIds with
    | .error id => .error (.readError id)
    | .ok addedContents =>
      match st.fileMerge removedContents addedContents with
      | .resolved mergedContent => .ok (some (mergedContent, executable))
      | .conflicted => .ok none

/-- `try_resolve_file_conflict`: no resolution unless
`|adds| == |removes| + 1`; no resolution if any term is not a `File`;
the executable bit by net delta majority (`exec_delta > 0` and
`regular_delta <= 0` → executable; `regular_delta > 0` and
`exec_delta <= 0` → plain; otherwise no resolution); then read the
blobs and run binary the external merger. -/
def tryResolveFileConflict (st : Store) (filename : List Nat) (conflict : Conflict) :
    Except MErr (Option (List Nat × Bool)) :=
  if conflict.adds.length ≠ conflict.removes.length + 1 then .ok none
  else
    match scanFileTerms conflict.removes with
    | none => .ok none
    | some (removedIds, removedExec, removedRegular) =>
      match scanFileTerms conflict.adds with
      | none => .ok none
      | some (addedIds, addedExec, addedRegular) =>
        -- exec_delta = addedExec - removedExec, regular_delta likewise
        if (addedExec : Int) - (removedExec : Int) > 0 ∧
            (addedRegular : Int) - (removedRegular : Int) ≤ 0 then
          tryResolveContents st filename removedIds addedIds true
        else if (addedRegular : Int) - (removedRegular : Int) > 0 ∧
            (addedExec : Int) - (removedExec : Int) ≤ 0 then
          tryResolveContents st filename removedIds addedIds false
        else .ok none

/-! ### merge_tree_value and merge_trees -/

/-- `maybe_tree_id`: a directory or an absence (≡ the empty tree). -/
def maybeTreeId (value : Option TreeValue) (emptyTreeId : ObjId) : Option ObjId :=
  match value with
  | some (.tree id) => some id
  | none => some emptyTreeId
  | _ => none

/-- The conflict seeded by `merge_tree_value`: `base` into removes,
then `side1` and `side2` into adds, each when present. -/
def seedConflict (maybeBase maybeSide1 maybeSide2 : Option TreeValue) : Conflict :=
  ⟨(match maybeBase with | some b => [⟨b⟩] | none => []),
    (match maybeSide1 with | some s => [⟨s⟩] | none => []) ++
      (match maybeSide2 with | some s => [⟨s⟩] | none => [])⟩

/-- The non-recursive branch of `merge_tree_value` (at least one side
is neither a tree nor absent): seed a conflict, simplify it; empty
adds mean absence; no removes and one add mean that value; otherwise
attempt the file-content merge, writing the merged file on success and
persisting the conflict object (emitting `Conflict(new_id)`)
otherwise. -/
def mergeTreeValueLeaf (st : Store) (dir : List Nat) (basename : Nat)
    (maybeBase maybeSide1 maybeSide2 : Option TreeValue) :
    MResult (Option TreeValue) × Store :=
  let filename := dir ++ [basename]
  match simplifyConflict st filename (seedConflict maybeBase maybeSide1 maybeSide2) with
  | .error e => (.err e, st)
  | .ok conflict =>
    if conflict.adds = [] then (.ok none, st)
    else if conflict.removes = [] ∧ conflict.adds.length = 1 then
      (.ok (conflict.adds.head?.map (fun t => t.value)), st)
    else
      match tryResolveFileConflict st filename conflict with
      | .error e => (.err e, st)
      | .ok (some (mergedContent, executable)) =>
        let w := writeFile st filename mergedContent
        (.ok (some (.file w.1 executable)), w.2)
      | .ok none =>
        let w := writeConflict st filename conflict
        (.ok (some (.conflict w.1)), w.2)

/-- `merge_tree_value`, parameterized by the recursive `merge_trees`
call: when base, side1 and side2 are all tree-or-empty, load the three
subtrees and merge them recursively (a merged empty tree means
absence); otherwise take the conflict branch. -/
def mergeTreeValueAux
    (mt : Store → Tree → Tree → Tree → MResult ObjId × Store)
    (st : Store) (dir : List Nat) (basename : Nat)
    (maybeBase maybeSide1 maybeSide2 : Option TreeValue) :
    MResult (Option TreeValue) × Store :=
  match maybeTreeId maybeBase st.emptyTreeId, maybeTreeId maybeSide1 st.emptyTreeId,
      maybeTreeId maybeSide2 st.emptyTreeId with
  | some baseId, some side1Id, some side2Id =>
    let subdir := dir ++ [basename]
    match getTree st subdir baseId with
    | none => (.err .backend, st)
    | some baseTree =>
      match getTree st subdir side1Id with
      | none => (.err .backend, st)
      | some side1Tree =>
        match getTree st subdir side2Id with
        | none => (.err .backend, st)
        | some side2Tree =>
          match mt st side1Tree baseTree side2Tree with
          | (.ok mergedId, st') =>
            if mergedId = st.emptyTreeId then (.ok none, st')
            else (.ok (some (.tree mergedId)), st')
          | (.err e, st') => (.err e, st')
          | (.assertFail, st') => (.assertFail, st')
  | _, _, _ => mergeTreeValueLeaf st dir basename maybeBase maybeSide1 maybeSide2

/-- The entry loop of `merge_trees`: fold the base↔side2 entry diff
over the mutable copy of side1's entry table, adopting side2 where
side1 is unchanged, keeping side1 where both sides converged, and
calling `merge_tree_value` where they diverged. -/
def mergeLoopAux
    (mtv : Store → List Nat → Nat → Option TreeValue → Option TreeValue →
      Option TreeValue → MResult (Option TreeValue) × Store)
    (dir : List Nat) (side1Data : TreeData) :
    List (Nat × Option TreeValue × Option TreeValue) → TreeData → Store →
      MResult TreeData × Store
  | [], newTree, st => (.ok newTree, st)
  | (basename, maybeBase, maybeSide2) :: restEntries, newTree, st =>
    let maybeSide1 := lookupValue side1Data basename
    if maybeSide1 = maybeBase then
      let newTree' := match maybeSide2 with
        | none => removeValue newTree basename
        | some v => setValue newTree basename v
      mergeLoopAux mtv dir side1Data restEntries newTree' st
    else if maybeSide1 = maybeSide2 then
      mergeLoopAux mtv dir side1Data restEntries newTree st
    else
      match mtv st dir basename maybeBase maybeSide1 maybeSide2 with
      | (.ok newValue, st') =>
        let newTree' := match newValue with
          | none => removeValue newTree basename
          | some v => setValue newTree basename v
        mergeLoopAux mtv dir side1Data restEntries newTree' st'
      | (.err e, st') => (.err e, st')
      | (.assertFail, st') => (.assertFail, st')

/-- The body of `merge_trees`: assert all three snapshots share the
base's directory; the id shortcuts; then the entry loop starting from
side1's entry table, persisted by `write_tree`. -/
def mergeTreesStep (mt : Store → Tree → Tree → Tree → MResult ObjId × Store)
    (st : Store) (side1Tree baseTree side2Tree : Tree) : MResult ObjId × Store :=
  if side1Tree.dir ≠ baseTree.dir ∨ side2Tree.dir ≠ baseTree.dir then (.assertFail, st)
  else if baseTree.id = side1Tree.id then (.ok side2Tree.id, st)
  else if baseTree.id = side2Tree.id ∨ side1Tree.id = side2Tree.id then
    (.ok side1Tree.id, st)
  else
    match mergeLoopAux (mergeTreeValueAux mt) baseTree.dir side1Tree.data
        (diffEntries baseTree.data side2Tree.data) side1Tree.data st with
    | (.ok newTree, st') =>
      let w := writeTree st' baseTree.dir newTree
      (.ok w.1, w.2)
    | (.err e, st') => (.err e, st')
    | (.assertFail, st') => (.assertFail, st')

/-- `merge_trees(side1, base, side2)`, with fuel bounding the
recursion depth (the content-addressed store cannot actually hold an
infinitely deep tree). -/
def mergeTrees : Nat → Store → Tree → Tree → Tree → MResult ObjId × Store
  | 0, st, _, _, _ => (.err .outOfFuel, st)
  | fuel + 1, st, side1Tree, baseTree, side2Tree =>
    mergeTreesStep (fun st' a b c => mergeTrees fuel st' a b c) st
      side1Tree baseTree side2Tree

/-- Claim C1: `merge_trees` applies the shortcuts in order — equal
base and side1 ids return side2's id, then an id equality of base with
side2 or of the two sides returns side1's id — by id equality alone,
before any entry-wise merging, and with the store left untouched. -/
theorem c1_merge_trees_shortcuts (fuel : Nat) (st : Store) (s1 b s2 : Tree)
    (h1 : s1.dir = b.dir) (h2 : s2.dir = b.dir) :
    (b.id = s1.id → mergeTrees (fuel + 1) st s1 b s2 = (.ok s2.id, st)) ∧
    (b.id ≠ s1.id → (b.id = s2.id ∨ s1.id = s2.id) →
      mergeTrees (fuel + 1) st s1 b s2 = (.ok s1.id, st)) := by
  constructor
  · intro hid
    rw [mergeTrees, mergeTreesStep, if_neg (by simp [h1, h2]), if_pos hid]
  · intro hne hor
    rw [mergeTrees, mergeTreesStep, if_neg (by simp [h1, h2]), if_neg hne, if_pos hor]

/-- Witness for C1 at concrete one-entry-free trees: `merge(a, a, b)`
yields `b.id` and `merge(a, b, b)` yields `a.id`, with the store
unchanged. -/
theorem c1_merge_trees_shortcuts_witness :
    mergeTrees 1 ⟨[], [], [], 0, 0, fun _ _ => .conflicted⟩
        ⟨[], 1, []⟩ ⟨[], 1, []⟩ ⟨[], 2, []⟩ =
      (.ok 2, ⟨[], [], [], 0, 0, fun _ _ => .conflicted⟩) ∧
    mergeTrees 1 ⟨[], [], [], 0, 0, fun _ _ => .conflicted⟩
        ⟨[], 1, []⟩ ⟨[], 2, []⟩ ⟨[], 2, []⟩ =
      (.ok 1, ⟨[], [], [], 0, 0, fun _ _ => .conflicted⟩) := by
  constructor
  · exact (c1_merge_trees_shortcuts 0 ⟨[], [], [], 0, 0, fun _ _ => .conflicted⟩
      ⟨[], 1, []⟩ ⟨[], 1, []⟩ ⟨[], 2, []⟩ rfl rfl).1 rfl
  · exact (c1_merge_trees_shortcuts 0 ⟨[], [], [], 0, 0, fun _ _ => .conflicted⟩
      ⟨[], 1, []⟩ ⟨[], 2, []⟩ ⟨[], 2, []⟩ rfl rfl).2 (by decide) (Or.inl rfl)

theorem getTree_dir (st : Store) (d : List Nat) (i : ObjId) (t : Tree)
    (h : getTree st d i = some t) : t.dir = d := by
  rw [getTree] at h
  cases hl : lookupTbl st.trees i with
  | none => rw [hl] at h; cases h
  | some dd => rw [hl] at h; cases h; rfl

theorem mergeTreeValueLeaf_no_assert (st : Store) (dir : List Nat) (n : Nat)
    (mB m1 m2 : Option TreeValue) :
    (mergeTreeValueLeaf st dir n mB m1 m2).1 ≠ .assertFail := by
  rw [mergeTreeValueLeaf]
  cases hs : simplifyConflict st (dir ++ [n]) (seedConflict mB m1 m2) with
  | error e => simp
  | ok c =>
    simp only
    by_cases hadds : c.adds = []
    · simp [hadds]
    · rw [if_neg hadds]
      by_cases hone : c.removes = [] ∧ c.adds.length = 1
      · simp [hone]
      · rw [if_neg hone]
        cases ht : tryResolveFileConflict st (dir ++ [n]) c with
        | error e => simp
        | ok o =>
          cases o with
          | none => simp
          | some p => obtain ⟨mc, ex⟩ := p; simp

theorem mergeTreeValueAux_no_assert
    (mt : Store → Tree → Tree → Tree → MResult ObjId × Store)
    (hmt : ∀ (st : Store) (a b c : Tree), a.dir = b.dir → c.dir = b.dir →
      (mt st a b c).1 ≠ .assertFail)
    (st : Store) (dir : List Nat) (n : Nat) (mB m1 m2 : Option TreeValue) :
    (mergeTreeValueAux mt st dir n mB m1 m2).1 ≠ .assertFail := by
  rw [mergeTreeValueAux]
  cases hB : maybeTreeId mB st.emptyTreeId with
  | none =>
    cases h1 : maybeTreeId m1 st.emptyTreeId <;> cases h2 : maybeTreeId m2 st.emptyTreeId <;>
      exact mergeTreeValueLeaf_no_assert st dir n mB m1 m2
  | some baseId =>
    cases h1 : maybeTreeId m1 st.emptyTreeId with
    | none =>
      cases h2 : maybeTreeId m2 st.emptyTreeId <;>
        exact mergeTreeValueLeaf_no_assert st dir n mB m1 m2
    | some side1Id =>
      cases h2 : maybeTreeId m2 st.emptyTreeId with
      | none => exact mergeTreeValueLeaf_no_assert st dir n mB m1 m2
      | some side2Id =>
        simp only
        cases hgB : getTree st (dir ++ [n]) baseId with
        | none => simp
        | some baseTree =>
          dsimp only
          cases hg1 : getTree st (dir ++ [n]) side1Id with
          | none => simp
          | some side1Tree =>
            dsimp only
            cases hg2 : getTree st (dir ++ [n]) side2Id with
            | none => simp
            | some side2Tree =>
              dsimp only
              cases hres : mt st side1Tree baseTree side2Tree with
              | mk r st' =>
                cases r with
                | ok mergedId =>
                  simp only
                  by_cases he : mergedId = st.emptyTreeId
                  · simp [he]
                  · simp [he]
                | err e => simp
                | assertFail =>
                  exfalso
                  have := hmt st side1Tree baseTree side2Tree
                    ((getTree_dir st _ _ _ hg1).trans (getTree_dir st _ _ _ hgB).symm)
                    ((getTree_dir st _ _ _ hg2).trans (getTree_dir st _ _ _ hgB).symm)
                  rw [hres] at this
                  exact this rfl

theorem mergeLoopAux_no_assert
    (mtv : Store → List Nat → Nat → Option TreeValue → Option TreeValue →
      Option TreeValue → MResult (Option TreeValue) × Store)
    (dir : List Nat) (s1d : TreeData)
    (hmtv : ∀ (st : Store) (n : Nat) (mB m1 m2 : Option TreeValue),
      (mtv st dir n mB m1 m2).1 ≠ .assertFail) :
    ∀ (entries : List (Nat × Option TreeValue × Option TreeValue)) (acc : TreeData)
      (st : Store), (mergeLoopAux mtv dir s1d entries acc st).1 ≠ .assertFail
  | [], acc, st => by simp [mergeLoopAux]
  | (n, mB, mS2) :: rest, acc, st => by
    simp only [mergeLoopAux]
    by_cases hc1 : lookupValue s1d n = mB
    · rw [if_pos hc1]
      exact mergeLoopAux_no_assert mtv dir s1d hmtv rest _ st
    · rw [if_neg hc1]
      by_cases hc2 : lookupValue s1d n = mS2
      · rw [if_pos hc2]
        exact mergeLoopAux_no_assert mtv dir s1d hmtv rest acc st
      · rw [if_neg hc2]
        cases hres : mtv st dir n mB (lookupValue s1d n) mS2 with
        | mk r st' =>
          cases r with
          | ok v => exact mergeLoopAux_no_assert mtv dir s1d hmtv rest _ st'
          | err e => simp
          | assertFail =>
            exfalso
            have := hmtv st n mB (lookupValue s1d n) mS2
            rw [hres] at this
            exact this rfl

theorem mergeTrees_no_assert : ∀ (fuel : Nat) (st : Store) (s1 b s2 : Tree),
    s1.dir = b.dir → s2.dir = b.dir → (mergeTrees fuel st s1 b s2).1 ≠ .assertFail
  | 0, st, s1, b, s2, _, _ => by simp [mergeTrees]
  | fuel + 1, st, s1, b, s2, h1, h2 => by
    rw [mergeTrees, mergeTreesStep, if_neg (by simp [h1, h2])]
    by_cases hc1 : b.id = s1.id
    · rw [if_pos hc1]; simp
    · rw [if_neg hc1]
      by_cases hc2 : b.id = s2.id ∨ s1.id = s2.id
      · rw [if_pos hc2]; simp
      · rw [if_neg hc2]
        have hmt : ∀ (st' : Store) (a bb c : Tree), a.dir = bb.dir → c.dir = bb.dir →
            (mergeTrees fuel st' a bb c).1 ≠ .assertFail :=
          fun st' a bb c ha hc => mergeTrees_no_assert fuel st' a bb c ha hc
        cases hres : mergeLoopAux
            (mergeTreeValueAux (fun st' a bb c => mergeTrees fuel st' a bb c)) b.dir
            s1.data (diffEntries b.data s2.data) s1.data st with
        | mk r st' =>
          cases r with
          | ok newTree => simp
          | err e => simp
          | assertFail =>
            exfalso
            have := mergeLoopAux_no_assert
              (mergeTreeValueAux (fun st' a bb c => mergeTrees fuel st' a bb c)) b.dir
              s1.data
              (fun st'' n mB mm1 mm2 => mergeTreeValueAux_no_assert _ hmt st'' b.dir n mB mm1 mm2)
              (diffEntries b.data s2.data) s1.data st
            rw [hres] at this
            exact this rfl

/-- Claim C10: `merge_trees` asserts that side1 and side2 share the
base's directory before doing any work — faulting with the store
untouched when either differs — and under the same-directory
precondition the assertion failure is unreachable at every recursion
depth (subtree merges load all three subtrees at the same
subdirectory). -/
theorem c10_merge_trees_dir_assertion (fuel : Nat) (st : Store) (s1 b s2 : Tree) :
    ((s1.dir ≠ b.dir ∨ s2.dir ≠ b.dir) →
      mergeTrees (fuel + 1) st s1 b s2 = (.assertFail, st)) ∧
    (s1.dir = b.dir → s2.dir = b.dir →
      (mergeTrees fuel st s1 b s2).1 ≠ .assertFail) := by
  constructor
  · intro h
    rw [mergeTrees, mergeTreesStep, if_pos h]
  · exact mergeTrees_no_assert fuel st s1 b s2

/-- Witness for C10: a side1 at directory `[1]` against a base at the
root faults with the store untouched; with all directories equal the
same call does not fault. -/
theorem c10_merge_trees_dir_assertion_witness :
    mergeTrees 1 ⟨[], [], [], 0, 0, fun _ _ => .conflicted⟩
        ⟨[1], 1, []⟩ ⟨[], 2, []⟩ ⟨[], 3, []⟩ =
      (.assertFail, ⟨[], [], [], 0, 0, fun _ _ => .conflicted⟩) ∧
    (mergeTrees 1 ⟨[], [], [], 0, 0, fun _ _ => .conflicted⟩
        ⟨[], 1, []⟩ ⟨[], 2, []⟩ ⟨[], 3, []⟩).1 ≠ .assertFail := by
  constructor
  · exact (c10_merge_trees_dir_assertion 0 ⟨[], [], [], 0, 0, fun _ _ => .conflicted⟩
      ⟨[1], 1, []⟩ ⟨[], 2, []⟩ ⟨[], 3, []⟩).1 (Or.inl (by decide))
  · exact (c10_merge_trees_dir_assertion 1 ⟨[], [], [], 0, 0, fun _ _ => .conflicted⟩
      ⟨[], 1, []⟩ ⟨[], 2, []⟩ ⟨[], 3, []⟩).2 rfl rfl

/-! ### Claim C3: the simplification algorithm as the spec words it -/

/-- Following the claim's wording, one positive term's contribution to
(new removes, new adds): a `Conflict` term is replaced by inlining the
inner conflict's adds into adds and its removes into removes; any
other term contributes itself positively. -/
def inlineAdd (st : Store) (t : ConflictTerm) :
    Except MErr (List ConflictTerm × List ConflictTerm) :=
  match t.value with
  | .conflict id =>
    match readConflict st id with
    | none => .error .backend
    | some c => .ok (c.removes, c.adds)
  | _ => .ok ([], [t])

/-- One negative term's contribution: a `Conflict` term inlines the
inner adds into removes and the inner removes into adds (sign
inversion); any other term contributes itself negatively. -/
def inlineRemove (st : Store) (t : ConflictTerm) :
    Except MErr (List ConflictTerm × List ConflictTerm) :=
  match t.value with
  | .conflict id =>
    match readConflict st id with
    | none => .error .backend
    | some c => .ok (c.adds, c.removes)
  | _ => .ok ([t], [])

/-- Concatenate the per-term contributions in order. -/
def collectContribs
    (f : ConflictTerm → Except MErr (List ConflictTerm × List ConflictTerm)) :
    List ConflictTerm → Except MErr (List ConflictTerm × List ConflictTerm)
  | [] => .ok ([], [])
  | t :: ts =>
    match f t with
    | .error e => .error e
    | .ok p =>
      match collectContribs f ts with
      | .error e => .error e
      | .ok q => .ok (p.1 ++ q.1, p.2 ++ q.2)

/-- The claim's stable cancellation pass: for each add in order, scan
the removes for the first remove with an equal value; on a hit drop
both, preserving the order of the remaining terms. -/
def cancelSpec : List ConflictTerm → List ConflictTerm →
    List ConflictTerm × List ConflictTerm
  | [], removes => ([], removes)
  | a :: adds1, removes =>
    if removes.any (fun r => decide (r.value = a.value)) then
      cancelSpec adds1 (removes.eraseP (fun r => decide (r.value = a.value)))
    else
      let r := cancelSpec adds1 removes
      (a :: r.1, r.2)

/-- The simplification exactly as the claim words it: flatten one
level per term, then the stable cancellation pass. -/
def simplifyConflictSpec (st : Store) (path : List Nat) (c : Conflict) :
    Except MErr Conflict :=
  match collectContribs (inlineAdd st) c.adds with
  | .error e => .error e
  | .ok pa =>
    match collectContribs (inlineRemove st) c.removes with
    | .error e => .error e
    | .ok pr =>
      let p := cancelSpec (pa.2 ++ pr.2) (pa.1 ++ pr.1)
      .ok ⟨p.2, p.1⟩

theorem flattenAdds_eq_collect (st : Store) (path : List Nat) :
    ∀ ts, flattenAdds st path ts = collectContribs (inlineAdd st) ts
  | [] => rfl
  | t :: ts => by
    have ih := flattenAdds_eq_collect st path ts
    cases ht : t.value
    case conflict id =>
      simp only [flattenAdds, collectContribs, inlineAdd, treeValueToConflict, ht, ih]
      cases readConflict st id with
      | none => rfl
      | some c =>
        cases collectContribs (inlineAdd st) ts with
        | error e => rfl
        | ok q => rfl
    all_goals
      simp only [flattenAdds, collectContribs, inlineAdd, ht, ih]
    all_goals
      cases collectContribs (inlineAdd st) ts with
      | error e => rfl
      | ok q => rfl

theorem flattenRemoves_eq_collect (st : Store) (path : List Nat) :
    ∀ ts, flattenRemoves st path ts = collectContribs (inlineRemove st) ts
  | [] => rfl
  | t :: ts => by
    have ih := flattenRemoves_eq_collect st path ts
    cases ht : t.value
    case conflict id =>
      simp only [flattenRemoves, collectContribs, inlineRemove, treeValueToConflict,
        ht, ih]
      cases readConflict st id with
      | none => rfl
      | some c =>
        cases collectContribs (inlineRemove st) ts with
        | error e => rfl
        | ok q => rfl
    all_goals
      simp only [flattenRemoves, collectContribs, inlineRemove, ht, ih]
    all_goals
      cases collectContribs (inlineRemove st) ts with
      | error e => rfl
      | ok q => rfl

theorem removeFirstTerm_none (v : TreeValue) :
    ∀ rs, removeFirstTerm v rs = none →
      rs.any (fun r => decide (r.value = v)) = false
  | [], _ => rfl
  | r :: rs, h => by
    rw [removeFirstTerm] at h
    by_cases hr : r.value = v
    · rw [if_pos hr] at h; cases h
    · rw [if_neg hr] at h
      cases hrec : removeFirstTerm v rs with
      | some l => rw [hrec] at h; cases h
      | none =>
        simp only [List.any_cons, Bool.or_eq_false_iff]
        exact ⟨by simpa using hr, removeFirstTerm_none v rs hrec⟩

theorem removeFirstTerm_some (v : TreeValue) :
    ∀ rs l, removeFirstTerm v rs = some l →
      rs.any (fun r => decide (r.value = v)) = true ∧
        rs.eraseP (fun r => decide (r.value = v)) = l
  | [], l, h => by cases h
  | r :: rs, l, h => by
    rw [removeFirstTerm] at h
    by_cases hr : r.value = v
    · rw [if_pos hr] at h
      cases h
      exact ⟨by simp [hr], by simp [List.eraseP_cons, hr]⟩
    · rw [if_neg hr] at h
      cases hrec : removeFirstTerm v rs with
      | none => rw [hrec] at h; cases h
      | some l' =>
        rw [hrec] at h
        cases h
        obtain ⟨hany, herase⟩ := removeFirstTerm_some v rs l' hrec
        exact ⟨by simp [hany], by simp [List.eraseP_cons, hr, herase]⟩

theorem cancelPairs_eq_cancelSpec : ∀ adds1 removes : List ConflictTerm,
    cancelPairs adds1 removes = cancelSpec adds1 removes
  | [], removes => rfl
  | a :: adds1, removes => by
    rw [cancelPairs, cancelSpec]
    cases hrf : removeFirstTerm a.value removes with
    | some removes' =>
      obtain ⟨hany, herase⟩ := removeFirstTerm_some a.value removes removes' hrf
      rw [if_pos hany, herase]
      exact cancelPairs_eq_cancelSpec adds1 removes'
    | none =>
      rw [if_neg (by simp [removeFirstTerm_none a.value removes hrf])]
      simp only [cancelPairs_eq_cancelSpec adds1 removes]

/-- Claim C3: `simplify_conflict` is exactly the claim's algorithm —
flatten one level (positive `Conflict` terms inline the inner adds and
removes; negative ones inline them with inverted sign), then cancel
add/remove pairs with equal values by the stable linear pass — and on
the conflict `{+A, −B, +{+B, −A, +C}}` (with the inner conflict stored
at id 5, `A`/`B`/`C` the files 1/2/3) it yields `{+C}`, the single
value `C`. -/
theorem c3_simplify_conflict_algorithm :
    (∀ (st : Store) (path : List Nat) (c : Conflict),
      simplifyConflict st path c = simplifyConflictSpec st path c) ∧
    simplifyConflict
        ⟨[], [(5, ⟨[⟨.file 1 false⟩], [⟨.file 2 false⟩, ⟨.file 3 false⟩]⟩)], [], 0, 100,
          fun _ _ => .conflicted⟩ []
        ⟨[⟨.file 2 false⟩], [⟨.file 1 false⟩, ⟨.conflict 5⟩]⟩ =
      .ok ⟨[], [⟨.file 3 false⟩]⟩ := by
  refine ⟨?_, rfl⟩
  · intro st path c
    rw [simplifyConflict, simplifyConflictSpec, flattenAdds_eq_collect st path,
      flattenRemoves_eq_collect st path]
    cases collectContribs (inlineAdd st) c.adds with
    | error e => rfl
    | ok pa =>
      obtain ⟨r1, a1⟩ := pa
      cases collectContribs (inlineRemove st) c.removes with
      | error e => rfl
      | ok pr =>
        obtain ⟨r2, a2⟩ := pr
        simp only [cancelPairs_eq_cancelSpec]

/-! ### Claim C4: no Conflict-valued terms after simplification -/

/-- A term whose value is not itself a `Conflict`. -/
def termNotConflict (t : ConflictTerm) : Bool :=
  match t.value with
  | .conflict _ => false
  | _ => true

/-- No term of the conflict, in removes or adds, is itself a
`Conflict`. -/
def conflictFree (c : Conflict) : Bool :=
  (c.removes ++ c.adds).all termNotConflict

/-- Claim C4, counterexample to the claim as stated: with a stored
conflict of nesting depth 2 (id 5 holds a positive `Conflict(6)` term;
id 6 holds a plain file), simplifying `{+Conflict(5)}` inlines only
one level and returns `{+Conflict(6)}`, which still holds a
`Conflict`-valued term. -/
theorem c4_counterexample :
    simplifyConflict
        ⟨[], [(5, ⟨[], [⟨.conflict 6⟩]⟩), (6, ⟨[], [⟨.file 1 false⟩]⟩)], [], 0, 100,
          fun _ _ => .conflicted⟩ []
        ⟨[], [⟨.conflict 5⟩]⟩ =
      .ok ⟨[], [⟨.conflict 6⟩]⟩ ∧
    conflictFree ⟨[], [⟨.conflict 6⟩]⟩ = false := by
  exact ⟨rfl, rfl⟩

/-- `flattenAdds` only emits terms of stored conflicts or original
non-`Conflict` terms. -/
theorem flattenAdds_conflict_free (st : Store) (path : List Nat)
    (hstore : ∀ id cc, lookupTbl st.conflicts id = some cc → conflictFree cc = true) :
    ∀ ts rs as1, flattenAdds st path ts = .ok (rs, as1) →
      (∀ t ∈ rs, termNotConflict t = true) ∧ (∀ t ∈ as1, termNotConflict t = true)
  | [], rs, as1, h => by
    rw [flattenAdds] at h
    simp only [Except.ok.injEq, Prod.mk.injEq] at h
    obtain ⟨h1, h2⟩ := h
    subst h1; subst h2
    exact ⟨fun t ht => absurd ht (by simp), fun t ht => absurd ht (by simp)⟩
  | t :: ts, rs, as1, h => by
    rw [flattenAdds] at h
    cases ht : t.value
    case conflict id =>
      rw [ht] at h
      simp only [treeValueToConflict] at h
      cases hrc : readConflict st id with
      | none => rw [hrc] at h; cases h
      | some c =>
        rw [hrc] at h
        cases hrec : flattenAdds st path ts with
        | error e => rw [hrec] at h; cases h
        | ok q =>
          obtain ⟨rs', as1'⟩ := q
          rw [hrec] at h
          simp only [Except.ok.injEq, Prod.mk.injEq] at h
          obtain ⟨h1, h2⟩ := h
          subst h1; subst h2
          obtain ⟨ihr, iha⟩ := flattenAdds_conflict_free st path hstore ts rs' as1' hrec
          have hc : ∀ t ∈ c.removes ++ c.adds, termNotConflict t = true := by
            have := hstore id c hrc
            rw [conflictFree, List.all_eq_true] at this
            exact this
          constructor
          · intro x hx
            rcases List.mem_append.mp hx with hx | hx
            · exact hc x (List.mem_append.mpr (Or.inl hx))
            · exact ihr x hx
          · intro x hx
            rcases List.mem_append.mp hx with hx | hx
            · exact hc x (List.mem_append.mpr (Or.inr hx))
            · exact iha x hx
    all_goals
      rw [ht] at h
    all_goals
      cases hrec : flattenAdds st path ts with
      | error e => rw [hrec] at h; cases h
      | ok q =>
        obtain ⟨rs', as1'⟩ := q
        rw [hrec] at h
        simp only [Except.ok.injEq, Prod.mk.injEq] at h
        obtain ⟨h1, h2⟩ := h
        subst h1; subst h2
        obtain ⟨ihr, iha⟩ := flattenAdds_conflict_free st path hstore ts rs' as1' hrec
        refine ⟨ihr, ?_⟩
        intro x hx
        rcases List.mem_cons.mp hx with rfl | hx2
        · simp [termNotConflict, ht]
        · exact iha x hx2

/-- `flattenRemoves` only emits terms of stored conflicts or original
non-`Conflict` terms. -/
theorem flattenRemoves_conflict_free (st : Store) (path : List Nat)
    (hstore : ∀ id cc, lookupTbl st.conflicts id = some cc → conflictFree cc = true) :
    ∀ ts rs as1, flattenRemoves st path ts = .ok (rs, as1) →
      (∀ t ∈ rs, termNotConflict t = true) ∧ (∀ t ∈ as1, termNotConflict t = true)
  | [], rs, as1, h => by
    rw [flattenRemoves] at h
    simp only [Except.ok.injEq, Prod.mk.injEq] at h
    obtain ⟨h1, h2⟩ := h
    subst h1; subst h2
    exact ⟨fun t ht => absurd ht (by simp), fun t ht => absurd ht (by simp)⟩
  | t :: ts, rs, as1, h => by
    rw [flattenRemoves] at h
    cases ht : t.value
    case conflict id =>
      rw [ht] at h
      simp only [treeValueToConflict] at h
      cases hrc : readConflict st id with
      | none => rw [hrc] at h; cases h
      | some c =>
        rw [hrc] at h
        cases hrec : flattenRemoves st path ts with
        | error e => rw [hrec] at h; cases h
        | ok q =>
          obtain ⟨rs', as1'⟩ := q
          rw [hrec] at h
          simp only [Except.ok.injEq, Prod.mk.injEq] at h
          obtain ⟨h1, h2⟩ := h
          subst h1; subst h2
          obtain ⟨ihr, iha⟩ := flattenRemoves_conflict_free st path hstore ts rs' as1' hrec
          have hc : ∀ t ∈ c.removes ++ c.adds, termNotConflict t = true := by
            have := hstore id c hrc
            rw [conflictFree, List.all_eq_true] at this
            exact this
          constructor
          · intro x hx
            rcases List.mem_append.mp hx with hx | hx
            · exact hc x (List.mem_append.mpr (Or.inr hx))
            · exact ihr x hx
          · intro x hx
            rcases List.mem_append.mp hx with hx | hx
            · exact hc x (List.mem_append.mpr (Or.inl hx))
            · exact iha x hx
    all_goals
      rw [ht] at h
    all_goals
      cases hrec : flattenRemoves st path ts with
      | error e => rw [hrec] at h; cases h
      | ok q =>
        obtain ⟨rs', as1'⟩ := q
        rw [hrec] at h
        simp only [Except.ok.injEq, Prod.mk.injEq] at h
        obtain ⟨h1, h2⟩ := h
        subst h1; subst h2
        obtain ⟨ihr, iha⟩ := flattenRemoves_conflict_free st path hstore ts rs' as1' hrec
        refine ⟨?_, iha⟩
        intro x hx
        rcases List.mem_cons.mp hx with rfl | hx2
        · simp [termNotConflict, ht]
        · exact ihr x hx2

theorem removeFirstTerm_mem (v : TreeValue) :
    ∀ rs l x, removeFirstTerm v rs = some l → x ∈ l → x ∈ rs
  | [], l, x, h, _ => by cases h
  | r :: rs, l, x, h, hx => by
    rw [removeFirstTerm] at h
    by_cases hr : r.value = v
    · rw [if_pos hr] at h
      cases h
      exact List.mem_cons_of_mem r hx
    · rw [if_neg hr] at h
      cases hrec : removeFirstTerm v rs with
      | none => rw [hrec] at h; cases h
      | some l' =>
        rw [hrec] at h
        cases h
        rcases List.mem_cons.mp hx with rfl | hx2
        · simp
        · exact List.mem_cons_of_mem r (removeFirstTerm_mem v rs l' x hrec hx2)

theorem cancelPairs_mem_adds : ∀ (adds1 removes : List ConflictTerm) (x : ConflictTerm),
    x ∈ (cancelPairs adds1 removes).1 → x ∈ adds1
  | [], removes, x, h => by simp [cancelPairs] at h
  | a :: adds1, removes, x, h => by
    rw [cancelPairs] at h
    cases hrf : removeFirstTerm a.value removes with
    | some removes' =>
      rw [hrf] at h
      exact List.mem_cons_of_mem a (cancelPairs_mem_adds adds1 removes' x h)
    | none =>
      rw [hrf] at h
      simp only at h
      rcases List.mem_cons.mp h with rfl | h2
      · simp
      · exact List.mem_cons_of_mem a (cancelPairs_mem_adds adds1 removes x h2)

theorem cancelPairs_mem_removes : ∀ (adds1 removes : List ConflictTerm) (x : ConflictTerm),
    x ∈ (cancelPairs adds1 removes).2 → x ∈ removes
  | [], removes, x, h => by simpa [cancelPairs] using h
  | a :: adds1, removes, x, h => by
    rw [cancelPairs] at h
    cases hrf : removeFirstTerm a.value removes with
    | some removes' =>
      rw [hrf] at h
      exact removeFirstTerm_mem a.value removes removes' x hrf
        (cancelPairs_mem_removes adds1 removes' x h)
    | none =>
      rw [hrf] at h
      simp only at h
      exact cancelPairs_mem_removes adds1 removes x h

/-- Claim C4 (amended): when every conflict stored in the store is
itself free of `Conflict`-valued terms (nesting depth at most one
below the input's own terms), the conflict returned by
`simplify_conflict` contains no term, in adds or in removes, whose
value is a `Conflict`. For arbitrary nesting depth the claim fails:
flattening inlines exactly one level (see the counterexample). -/
theorem c4_simplified_conflict_free (st : Store) (path : List Nat) (c c' : Conflict)
    (hstore : ∀ id cc, lookupTbl st.conflicts id = some cc → conflictFree cc = true)
    (h : simplifyConflict st path c = .ok c') : conflictFree c' = true := by
  rw [simplifyConflict] at h
  cases ha : flattenAdds st path c.adds with
  | error e => rw [ha] at h; cases h
  | ok pa =>
    obtain ⟨r1, a1⟩ := pa
    rw [ha] at h
    cases hr : flattenRemoves st path c.removes with
    | error e => rw [hr] at h; cases h
    | ok pr =>
      obtain ⟨r2, a2⟩ := pr
      rw [hr] at h
      simp only [Except.ok.injEq] at h
      subst h
      obtain ⟨h1r, h1a⟩ := flattenAdds_conflict_free st path hstore c.adds r1 a1 ha
      obtain ⟨h2r, h2a⟩ := flattenRemoves_conflict_free st path hstore c.removes r2 a2 hr
      rw [conflictFree, List.all_eq_true]
      intro t ht
      rcases List.mem_append.mp ht with ht | ht
      · have hmem := cancelPairs_mem_removes (a1 ++ a2) (r1 ++ r2) t ht
        rcases List.mem_append.mp hmem with h' | h'
        · exact h1r t h'
        · exact h2r t h'
      · have hmem := cancelPairs_mem_adds (a1 ++ a2) (r1 ++ r2) t ht
        rcases List.mem_append.mp hmem with h' | h'
        · exact h1a t h'
        · exact h2a t h'

/-- Witness for the amended C4 on a depth-1 store: simplifying
`{+A, −B, +{+B, −A, +C}}` over a store whose only stored conflict
holds plain files yields a conflict-free result. -/
theorem c4_simplified_conflict_free_witness :
    conflictFree ⟨[], [⟨.file 3 false⟩]⟩ = true := by
  refine c4_simplified_conflict_free
    ⟨[], [(5, ⟨[⟨.file 1 false⟩], [⟨.file 2 false⟩, ⟨.file 3 false⟩]⟩)], [], 0, 100,
      fun _ _ => .conflicted⟩ []
    ⟨[⟨.file 2 false⟩], [⟨.file 1 false⟩, ⟨.conflict 5⟩]⟩ ⟨[], [⟨.file 3 false⟩]⟩
    ?_ rfl
  intro id cc h
  rw [lookupTbl] at h
  by_cases h5 : (5 : Nat) = id
  · rw [if_pos h5] at h
    injection h with h
    subst h
    decide
  · rw [if_neg h5] at h
    rw [lookupTbl] at h
    cases h

/-! ### Claim C5: the file-content merge conditions -/

/-- Every term's value is a `File` (the claim's wording). -/
def allFileTerms (ts : List ConflictTerm) : Bool :=
  ts.all (fun t => match t.value with | .file _ _ => true | _ => false)

/-- The file ids of the `File` terms, in order. -/
def termFileIds (ts : List ConflictTerm) : List ObjId :=
  ts.filterMap (fun t => match t.value with | .file id _ => some id | _ => none)

/-- Number of executable file terms. -/
def countExec (ts : List ConflictTerm) : Nat :=
  (ts.filter (fun t => match t.value with | .file _ true => true | _ => false)).length

/-- Number of regular (non-executable) file terms. -/
def countRegular (ts : List ConflictTerm) : Nat :=
  (ts.filter (fun t => match t.value with | .file _ false => true | _ => false)).length

/-- The claim's net-delta majority rule for the executable bit:
`exec delta > 0` and `regular delta ≤ 0` gives executable,
`regular delta > 0` and `exec delta ≤ 0` gives non-executable, any
other combination is unresolved. -/
def execBitRule (c : Conflict) : Option Bool :=
  if (countExec c.adds : Int) - (countExec c.removes : Int) > 0 ∧
      (countRegular c.adds : Int) - (countRegular c.removes : Int) ≤ 0 then some true
  else if (countRegular c.adds : Int) - (countRegular c.removes : Int) > 0 ∧
      (countExec c.adds : Int) - (countExec c.removes : Int) ≤ 0 then some false
  else none

theorem scanFileTerms_isSome_allFiles :
    ∀ (ts : List ConflictTerm) (p : List ObjId × Nat × Nat),
      scanFileTerms ts = some p → allFileTerms ts = true
  | [], _, _ => rfl
  | t :: ts, p, h => by
    rw [scanFileTerms] at h
    cases htv : t.value
    case file id ex =>
      rw [htv] at h
      cases hrec : scanFileTerms ts with
      | none => rw [hrec] at h; cases h
      | some q =>
        have hall := scanFileTerms_isSome_allFiles ts q hrec
        simp only [allFileTerms, List.all_cons, Bool.and_eq_true]
        refine ⟨by simp [htv], ?_⟩
        rw [allFileTerms] at hall
        exact hall
    all_goals (rw [htv] at h; cases h)

theorem scanFileTerms_of_allFiles :
    ∀ ts : List ConflictTerm, allFileTerms ts = true →
      scanFileTerms ts = some (termFileIds ts, countExec ts, countRegular ts)
  | [] => fun _ => rfl
  | t :: ts => by
    intro h
    simp only [allFileTerms, List.all_cons, Bool.and_eq_true] at h
    obtain ⟨h1, h2⟩ := h
    cases htv : t.value
    case file id ex =>
      have ih := scanFileTerms_of_allFiles ts (by rw [allFileTerms]; exact h2)
      rw [scanFileTerms, htv, ih]
      cases ex <;>
        simp [termFileIds, countExec, countRegular, htv, List.filterMap_cons,
          List.filter_cons]
    all_goals (rw [htv] at h1; exact Bool.noConfusion h1)

theorem readAll_ok_of_readable (st : Store) (p : List Nat) :
    ∀ ids : List ObjId, (∀ id ∈ ids, (readFile st p id).isSome = true) →
      ∃ rc, readAll st p ids = .ok rc
  | [], _ => ⟨[], rfl⟩
  | id :: ids, h => by
    have h1 := h id (by simp)
    cases hr : readFile st p id with
    | none => rw [hr] at h1; cases h1
    | some content =>
      obtain ⟨rc, hrc⟩ := readAll_ok_of_readable st p ids (fun i hi => h i (by simp [hi]))
      exact ⟨content :: rc, by rw [readAll, hr, hrc]⟩

theorem mem_termFileIds : ∀ (ts : List ConflictTerm) (id : ObjId),
    id ∈ termFileIds ts → ∃ t ∈ ts, ∃ ex, t.value = .file id ex
  | [], id, h => by simp [termFileIds] at h
  | t :: ts, id, h => by
    simp only [termFileIds, List.filterMap_cons] at h
    cases htv : t.value
    case file i ex =>
      rw [htv] at h
      simp only at h
      rcases List.mem_cons.mp h with rfl | h2
      · exact ⟨t, by simp, ex, htv⟩
      · obtain ⟨t', ht', ex', he⟩ := mem_termFileIds ts id h2
        exact ⟨t', by simp [ht'], ex', he⟩
    all_goals
      rw [htv] at h
    all_goals
      simp only at h
      obtain ⟨t', ht', ex', he⟩ := mem_termFileIds ts id h
      exact ⟨t', by simp [ht'], ex', he⟩

theorem scanFileTerms_components (ts : List ConflictTerm) (ids : List ObjId) (e r : Nat)
    (h : scanFileTerms ts = some (ids, e, r)) :
    allFileTerms ts = true ∧ ids = termFileIds ts ∧ e = countExec ts ∧ r = countRegular ts := by
  have hall := scanFileTerms_isSome_allFiles ts _ h
  have h2 := scanFileTerms_of_allFiles ts hall
  rw [h] at h2
  simp only [Option.some.injEq, Prod.mk.injEq] at h2
  exact ⟨hall, h2.1, h2.2.1, h2.2.2⟩

theorem tryResolveContents_ok_some_iff (st : Store) (filename : List Nat)
    (removedIds addedIds : List ObjId) (executable : Bool)
    (content : List Nat) (exec : Bool) :
    tryResolveContents st filename removedIds addedIds executable =
        .ok (some (content, exec)) ↔
      exec = executable ∧ ∃ rc ac, readAll st filename removedIds = .ok rc ∧
        readAll st filename addedIds = .ok ac ∧ st.fileMerge rc ac = .resolved content := by
  rw [tryResolveContents]
  cases hr : readAll st filename removedIds with
  | error id =>
    dsimp only
    constructor
    · intro h; cases h
    · rintro ⟨_, rc, ac, hrc, _⟩; cases hrc
  | ok rc =>
    cases ha : readAll st filename addedIds with
    | error id =>
      dsimp only
      constructor
      · intro h; cases h
      · rintro ⟨_, rc', ac, hrc, hac, _⟩; cases hac
    | ok ac =>
      dsimp only
      cases hm : st.fileMerge rc ac with
      | resolved mc =>
        constructor
        · intro h
          simp only [Except.ok.injEq, Option.some.injEq, Prod.mk.injEq] at h
          refine ⟨h.2.symm, rc, ac, rfl, rfl, ?_⟩
          rw [hm, h.1]
        · rintro ⟨hexec, rc', ac', hrc', hac', hm'⟩
          simp only [Except.ok.injEq] at hrc' hac'
          subst hrc' hac' hexec
          rw [hm] at hm'
          simp only [MergeResult.resolved.injEq] at hm'
          rw [hm']
      | conflicted =>
        constructor
        · intro h; simp at h
        · rintro ⟨_, rc', ac', hrc', hac', hm'⟩
          simp only [Except.ok.injEq] at hrc' hac'
          subst hrc' hac'
          rw [hm] at hm'
          cases hm'

theorem mergeTreeValueAux_eq_leaf
    (mt : Store → Tree → Tree → Tree → MResult ObjId × Store) (st : Store)
    (dir : List Nat) (n : Nat) (mB m1 m2 : Option TreeValue)
    (htri : maybeTreeId mB st.emptyTreeId = none ∨
      maybeTreeId m1 st.emptyTreeId = none ∨ maybeTreeId m2 st.emptyTreeId = none) :
    mergeTreeValueAux mt st dir n mB m1 m2 = mergeTreeValueLeaf st dir n mB m1 m2 := by
  rw [mergeTreeValueAux]
  cases hB : maybeTreeId mB st.emptyTreeId with
  | none =>
    cases hA : maybeTreeId m1 st.emptyTreeId <;>
      cases hC : maybeTreeId m2 st.emptyTreeId <;> rfl
  | some b =>
    cases hA : maybeTreeId m1 st.emptyTreeId with
    | none => cases hC : maybeTreeId m2 st.emptyTreeId <;> rfl
    | some a =>
      cases hC : maybeTreeId m2 st.emptyTreeId with
      | none => rfl
      | some c2 =>
        exfalso
        rcases htri with h | h | h
        · rw [h] at hB; cases hB
        · rw [h] at hA; cases hA
        · rw [h] at hC; cases hC

/-- Claim C5: `try_resolve_file_conflict` returns merged content with an
executable bit iff the conflict has `|adds| = |removes| + 1`, every term is a
`File`, the executable bit is settled by the net-delta majority rule, and the
external merger resolves the blobs cleanly (part 1, an iff); with readable
blobs, in every other case it returns no resolution (part 2); and when
`merge_tree_value` takes the conflict branch, the simplified conflict is
neither trivial nor a plain value, and the file merge yields no resolution,
it persists the conflict object and emits `Conflict(new_id)` (part 3). -/
theorem c5_try_resolve_file_conflict :
    (∀ (st : Store) (filename : List Nat) (c : Conflict) (content : List Nat) (exec : Bool),
      tryResolveFileConflict st filename c = .ok (some (content, exec)) ↔
        (c.adds.length = c.removes.length + 1 ∧
          allFileTerms c.removes = true ∧ allFileTerms c.adds = true ∧
          execBitRule c = some exec ∧
          ∃ rc ac, readAll st filename (termFileIds c.removes) = .ok rc ∧
            readAll st filename (termFileIds c.adds) = .ok ac ∧
            st.fileMerge rc ac = .resolved content)) ∧
    (∀ (st : Store) (filename : List Nat) (c : Conflict),
      (∀ t ∈ c.removes ++ c.adds, ∀ id ex, t.value = .file id ex →
        (readFile st filename id).isSome = true) →
      (¬ ∃ (content : List Nat) (exec : Bool),
          c.adds.length = c.removes.length + 1 ∧
          allFileTerms c.removes = true ∧ allFileTerms c.adds = true ∧
          execBitRule c = some exec ∧
          ∃ rc ac, readAll st filename (termFileIds c.removes) = .ok rc ∧
            readAll st filename (termFileIds c.adds) = .ok ac ∧
            st.fileMerge rc ac = .resolved content) →
      tryResolveFileConflict st filename c = .ok none) ∧
    (∀ (mt : Store → Tree → Tree → Tree → MResult ObjId × Store) (st : Store)
        (dir : List Nat) (basename : Nat) (mB m1 m2 : Option TreeValue) (sc : Conflict),
      (maybeTreeId mB st.emptyTreeId = none ∨ maybeTreeId m1 st.emptyTreeId = none ∨
        maybeTreeId m2 st.emptyTreeId = none) →
      simplifyConflict st (dir ++ [basename]) (seedConflict mB m1 m2) = .ok sc →
      sc.adds ≠ [] →
      ¬(sc.removes = [] ∧ sc.adds.length = 1) →
      tryResolveFileConflict st (dir ++ [basename]) sc = .ok none →
      mergeTreeValueAux mt st dir basename mB m1 m2 =
        (.ok (some (.conflict (writeConflict st (dir ++ [basename]) sc).1)),
          (writeConflict st (dir ++ [basename]) sc).2)) := by
  refine ⟨?_, ?_, ?_⟩
  · intro st filename c content exec
    constructor
    · intro h
      rw [tryResolveFileConflict] at h
      split at h
      · simp at h
      case isFalse hlen0 =>
        have hlen : c.adds.length = c.removes.length + 1 := by omega
        cases hsr : scanFileTerms c.removes with
        | none => rw [hsr] at h; cases h
        | some pr =>
          obtain ⟨removedIds, removedExec, removedRegular⟩ := pr
          rw [hsr] at h
          cases hsa : scanFileTerms c.adds with
          | none => rw [hsa] at h; cases h
          | some pa =>
            obtain ⟨addedIds, addedExec, addedRegular⟩ := pa
            rw [hsa] at h
            dsimp only at h
            obtain ⟨hallR, hidsR, heR, hrR⟩ := scanFileTerms_components _ _ _ _ hsr
            obtain ⟨hallA, hidsA, heA, hrA⟩ := scanFileTerms_components _ _ _ _ hsa
            subst hidsR heR hrR hidsA heA hrA
            split at h
            case isTrue hc1 =>
              obtain ⟨hexeq, rc, ac, hrc, hac, hm⟩ :=
                (tryResolveContents_ok_some_iff _ _ _ _ _ _ _).mp h
              subst hexeq
              refine ⟨hlen, hallR, hallA, ?_, rc, ac, hrc, hac, hm⟩
              rw [execBitRule, if_pos hc1]
            case isFalse hc1 =>
              split at h
              case isTrue hc2 =>
                obtain ⟨hexeq, rc, ac, hrc, hac, hm⟩ :=
                  (tryResolveContents_ok_some_iff _ _ _ _ _ _ _).mp h
                subst hexeq
                refine ⟨hlen, hallR, hallA, ?_, rc, ac, hrc, hac, hm⟩
                rw [execBitRule, if_neg hc1, if_pos hc2]
              case isFalse hc2 => simp at h
    · rintro ⟨hlen, hallR, hallA, hexec, rc, ac, hrc, hac, hm⟩
      rw [tryResolveFileConflict, if_neg (by omega),
        scanFileTerms_of_allFiles _ hallR, scanFileTerms_of_allFiles _ hallA]
      dsimp only
      rw [execBitRule] at hexec
      split at hexec
      case isTrue hc1 =>
        simp only [Option.some.injEq] at hexec
        subst hexec
        rw [if_pos hc1]
        exact (tryResolveContents_ok_some_iff _ _ _ _ _ _ _).mpr ⟨rfl, rc, ac, hrc, hac, hm⟩
      case isFalse hc1 =>
        split at hexec
        case isTrue hc2 =>
          simp only [Option.some.injEq] at hexec
          subst hexec
          rw [if_neg hc1, if_pos hc2]
          exact (tryResolveContents_ok_some_iff _ _ _ _ _ _ _).mpr ⟨rfl, rc, ac, hrc, hac, hm⟩
        case isFalse hc2 => cases hexec
  · intro st filename c hread hnone
    rw [tryResolveFileConflict]
    split
    · rfl
    case isFalse hlen0 =>
      have hlen : c.adds.length = c.removes.length + 1 := by omega
      cases hsr : scanFileTerms c.removes with
      | none => rfl
      | some pr =>
        obtain ⟨removedIds, removedExec, removedRegular⟩ := pr
        dsimp only
        cases hsa : scanFileTerms c.adds with
        | none => rfl
        | some pa =>
          obtain ⟨addedIds, addedExec, addedRegular⟩ := pa
          dsimp only
          obtain ⟨hallR, hidsR, heR, hrR⟩ := scanFileTerms_components _ _ _ _ hsr
          obtain ⟨hallA, hidsA, heA, hrA⟩ := scanFileTerms_components _ _ _ _ hsa
          subst hidsR heR hrR hidsA heA hrA
          have hrdR : ∀ id ∈ termFileIds c.removes,
              (readFile st filename id).isSome = true := by
            intro id hid
            obtain ⟨t, ht, ex, he⟩ := mem_termFileIds _ _ hid
            exact hread t (by simp [ht]) id ex he
          have hrdA : ∀ id ∈ termFileIds c.adds,
              (readFile st filename id).isSome = true := by
            intro id hid
            obtain ⟨t, ht, ex, he⟩ := mem_termFileIds _ _ hid
            exact hread t (by simp [ht]) id ex he
          obtain ⟨rc, hrc⟩ := readAll_ok_of_readable st filename _ hrdR
          obtain ⟨ac, hac⟩ := readAll_ok_of_readable st filename _ hrdA
          split
          case isTrue hc1 =>
            rw [tryResolveContents, hrc, hac]
            dsimp only
            cases hm : st.fileMerge rc ac with
            | conflicted => rfl
            | resolved mc =>
              exact absurd ⟨mc, true, hlen, hallR, hallA,
                by rw [execBitRule, if_pos hc1], rc, ac, hrc, hac, hm⟩ hnone
          case isFalse hc1 =>
            split
            case isTrue hc2 =>
              rw [tryResolveContents, hrc, hac]
              dsimp only
              cases hm : st.fileMerge rc ac with
              | conflicted => rfl
              | resolved mc =>
                exact absurd ⟨mc, false, hlen, hallR, hallA,
                  by rw [execBitRule, if_neg hc1, if_pos hc2], rc, ac, hrc, hac, hm⟩ hnone
            case isFalse hc2 => rfl
  · intro mt st dir basename mB m1 m2 sc htri hsimp hadds hone htry
    rw [mergeTreeValueAux_eq_leaf mt st dir basename mB m1 m2 htri, mergeTreeValueLeaf]
    simp only [hsimp]
    rw [if_neg hadds, if_neg hone, htry]

theorem c5_try_resolve_file_conflict_witness :
    tryResolveFileConflict
        ⟨[], [], [(1, [65]), (2, [66]), (3, [67])], 0, 100, fun _ _ => .resolved [9]⟩
        [0] ⟨[⟨.file 1 false⟩], [⟨.file 2 false⟩, ⟨.file 3 false⟩]⟩ =
      .ok (some ([9], false)) ∧
    tryResolveFileConflict
        ⟨[], [], [(1, [65]), (2, [66]), (3, [67])], 0, 100, fun _ _ => .resolved [9]⟩
        [0] ⟨[], [⟨.symlink 5⟩, ⟨.file 1 false⟩]⟩ = .ok none ∧
    mergeTreeValueAux (fun s _ _ _ => (.err .outOfFuel, s))
        ⟨[], [], [], 0, 50, fun _ _ => .conflicted⟩ [] 7
        (some (.file 1 false)) (some (.file 2 false)) none =
      (.ok (some (.conflict 50)),
        ⟨[], [(50, ⟨[⟨.file 1 false⟩], [⟨.file 2 false⟩]⟩)], [], 0, 51,
          fun _ _ => .conflicted⟩) := by
  refine ⟨?_, ?_, ?_⟩
  · exact (c5_try_resolve_file_conflict.1 _ _ _ _ _).mpr
      ⟨rfl, rfl, rfl, by decide, [[65]], [[66], [67]], rfl, rfl, rfl⟩
  · refine c5_try_resolve_file_conflict.2.1 _ _ _ ?_ ?_
    · intro t ht id ex he
      simp only [List.nil_append, List.mem_cons, List.not_mem_nil, or_false] at ht
      rcases ht with rfl | rfl
      · exact absurd he (by simp)
      · injection he with h1 h2
        subst h1
        rfl
    · rintro ⟨content, exec, hlen, _⟩
      exact absurd hlen (by decide)
  · exact c5_try_resolve_file_conflict.2.2 _ _ [] 7 _ _ _
      ⟨[⟨.file 1 false⟩], [⟨.file 2 false⟩]⟩ (Or.inl rfl) rfl (by decide) (by decide) rfl

end JJ
